import Mathlib

/-!
The UniValue JSON writer (`src/univalue/lib/univalue_write.cpp`)

A shallow embedding of the writer of the UniValue library and the properties of its
output.

* A `std::string` is the list of its bytes; a byte is a `Fin 256`, the object
  representation of a C++ `char`.  `uint8_t(ch)` is the value of that byte.
* `unsigned int` arithmetic is arithmetic on `Nat` reduced modulo `2 ^ 32`.
* `operator[]` on a `std::vector` outside its bounds has no defined result; the writer
  of the model returns `none` there, so a result `some s` means that every access of the
  run was inside its vector.
* The character literals of the source are written as their byte values: 10 is the
  newline, 32 the space, 34 the double quote, 44 the comma, 58 the colon, 91 and 93 the
  square brackets, 92 the backslash, 123 and 125 the braces.
-/

namespace UniValueWrite

/-- One byte of a `std::string`. -/
abbrev Byte := Fin 256

/-- The bytes of a string literal of the source (all literals of the writer are ASCII). -/
def lit (s : String) : List Byte :=
  s.toList.map (fun c => (⟨c.toNat % 256, Nat.mod_lt _ (by decide)⟩ : Byte))

/-- The conversion `uint8_t(ch)` of a `char` of a string: the byte as a value in 0..255. -/
def uint8_t (ch : Byte) : Nat := ch.val

/-- The modulus of `unsigned int`. -/
def UINT_MOD : Nat := 2 ^ 32

/-- The tags `UniValue::VType`, in the order of the `switch` of `writeStream`. -/
inductive VType where
  | VNULL | VOBJ | VARR | VSTR | VNUM | VBOOL
  deriving DecidableEq, Repr

/-- Modelled from the spec: the class declaration of `univalue.h` is not among the
sources.  A value has the four members the writer reads: the tag `typ`, the payload
`val`, and the two parallel vectors `keys` and `values`. -/
inductive UniValue where
  | mk (typ : VType) (val : List Byte) (keys : List (List Byte)) (values : List UniValue)

namespace UniValue

/-- Member `typ`. -/
def typ : UniValue → VType
  | mk t _ _ _ => t

/-- Member `val`. -/
def val : UniValue → List Byte
  | mk _ v _ _ => v

/-- Member `keys`. -/
def keys : UniValue → List (List Byte)
  | mk _ _ k _ => k

/-- Member `values`. -/
def values : UniValue → List UniValue
  | mk _ _ _ vs => vs

end UniValue

/-- A Null value. -/
def mkNull : UniValue := .mk .VNULL [] [] []

/-- A Bool value with payload `val`. -/
def mkBool (val : List Byte) : UniValue := .mk .VBOOL val [] []

/-- A Number value with payload `val`. -/
def mkNum (val : List Byte) : UniValue := .mk .VNUM val [] []

/-- A String value with payload `val`. -/
def mkStr (val : List Byte) : UniValue := .mk .VSTR val [] []

/-- An Array value with the elements `values`. -/
def mkArr (values : List UniValue) : UniValue := .mk .VARR [] [] values

/-- An Object value with the parallel vectors `keys` and `values`. -/
def mkObj (keys : List (List Byte)) (values : List UniValue) : UniValue :=
  .mk .VOBJ [] keys values

/-- A lower-case hexadecimal digit. -/
def hexDigit (n : Nat) : Byte :=
  if n < 10 then ⟨(48 + n) % 256, Nat.mod_lt _ (by decide)⟩
  else ⟨(87 + n) % 256, Nat.mod_lt _ (by decide)⟩

/-- Modelled from the spec: entry `i` of the table `escapes` of `univalue_escapes.h`, which
is not among the sources.  The escaped set is the double quote, the backslash and the
control bytes 0x00..0x1F; each has the short JSON escape where one is defined and the
generic form with four hexadecimal digits otherwise; every other entry is a null
pointer. -/
def escapeEntry (i : Nat) : Option (List Byte) :=
  if i = 0x22 then some (lit "\\\"")
  else if i = 0x5c then some (lit "\\\\")
  else if i = 0x08 then some (lit "\\b")
  else if i = 0x0c then some (lit "\\f")
  else if i = 0x0a then some (lit "\\n")
  else if i = 0x0d then some (lit "\\r")
  else if i = 0x09 then some (lit "\\t")
  else if i < 0x20 then some (lit "\\u00" ++ [hexDigit (i / 16), hexDigit (i % 16)])
  else none

/-- Modelled from the spec: the table `static const char *escapes[256]` of
`univalue_escapes.h`, which is not among the sources; a null pointer is `none`. -/
def escapes : List (Option (List Byte)) := (List.range 256).map escapeEntry

/-- The content of `UniValue::Stream`: the string `str` it refers to. -/
abbrev Stream := List Byte

/-- `Stream::put(char c)`. -/
def Stream.put (ss : Stream) (c : Byte) : Stream := ss ++ [c]

/-- `Stream::put(char c, size_t nFill)`. -/
def Stream.putFill (ss : Stream) (c : Byte) (nFill : Nat) : Stream :=
  ss ++ List.replicate nFill c

/-- `Stream::write(const char *s, size_t len)`. -/
def Stream.write (ss : Stream) (s : List Byte) (len : Nat) : Stream := ss ++ s.take len

/-- `Stream::operator<<`, for a C string and for a `std::string`. -/
def Stream.append (ss : Stream) (s : List Byte) : Stream := ss ++ s

/-- The body of the loop of `UniValue::jsonEscape` for one `ch`. -/
def jsonEscapeStep (ss : Stream) (ch : Byte) : Stream :=
  match escapes.getD (uint8_t ch) none with
  | some escStr => ss.append escStr
  | none => ss.put ch

/-- `UniValue::jsonEscape`. -/
def jsonEscape (ss : Stream) (inS : List Byte) : Stream :=
  inS.foldl jsonEscapeStep ss

/-- `UniValue::indentStr`: the product is taken in `unsigned int`. -/
def indentStr (ss : Stream) (prettyIndent indentLevel : Nat) : Stream :=
  ss.putFill 32 (prettyIndent * indentLevel % UINT_MOD)

mutual

/-- `UniValue::writeStream`. -/
def writeStream (v : UniValue) (ss : Stream) (prettyIndent indentLevel : Nat) :
    Option Stream :=
  let modIndent := if indentLevel = 0 then 1 else indentLevel
  match v.typ with
  | .VNULL => some (ss.write (lit "null") 4)
  | .VOBJ => writeObject v ss prettyIndent modIndent
  | .VARR => writeArray v ss prettyIndent modIndent
  | .VSTR => some ((jsonEscape (ss.put 34) v.val).put 34)
  | .VNUM => some (ss.append v.val)
  | .VBOOL =>
    if v.val = lit "1" then some (ss.write (lit "true") 4)
    else some (ss.write (lit "false") 5)
termination_by (sizeOf v, 1, 0)

/-- `UniValue::writeArray`. -/
def writeArray (v : UniValue) (ss : Stream) (prettyIndent indentLevel : Nat) :
    Option Stream :=
  let ss := ss.put 91
  let ss := if prettyIndent ≠ 0 then ss.put 10 else ss
  match writeArrayLoop v ss prettyIndent indentLevel 0 v.values.length with
  | none => none
  | some ss =>
    let ss := if prettyIndent ≠ 0 then
      indentStr ss prettyIndent ((indentLevel + UINT_MOD - 1) % UINT_MOD) else ss
    some (ss.put 93)
termination_by (sizeOf v, 0, v.values.length + 1)

/-- The `for` loop of `UniValue::writeArray`, from the index `i` on. -/
def writeArrayLoop (v : UniValue) (ss : Stream) (prettyIndent indentLevel : Nat)
    (i nValues : Nat) : Option Stream :=
  if i < nValues then
    let ss := if prettyIndent ≠ 0 then indentStr ss prettyIndent indentLevel else ss
    match h : v.values[i]? with
    | none => none
    | some x =>
      match writeStream x ss prettyIndent ((indentLevel + 1) % UINT_MOD) with
      | none => none
      | some ss =>
        let ss := if i ≠ nValues - 1 then ss.put 44 else ss
        let ss := if prettyIndent ≠ 0 then ss.put 10 else ss
        writeArrayLoop v ss prettyIndent indentLevel (i + 1) nValues
  else some ss
termination_by (sizeOf v, 0, nValues - i)
decreasing_by
  · apply Prod.Lex.left
    have hlt := List.sizeOf_lt_of_mem (List.getElem?_mem h)
    cases v with
    | mk t s k vs =>
      simp only [UniValue.values] at hlt
      simp only [UniValue.mk.sizeOf_spec]
      omega
  · apply Prod.Lex.right; apply Prod.Lex.right; omega

/-- `UniValue::writeObject`. -/
def writeObject (v : UniValue) (ss : Stream) (prettyIndent indentLevel : Nat) :
    Option Stream :=
  let ss := ss.put 123
  let ss := if prettyIndent ≠ 0 then ss.put 10 else ss
  match writeObjectLoop v ss prettyIndent indentLevel 0 v.keys.length with
  | none => none
  | some ss =>
    let ss := if prettyIndent ≠ 0 then
      indentStr ss prettyIndent ((indentLevel + UINT_MOD - 1) % UINT_MOD) else ss
    some (ss.put 125)
termination_by (sizeOf v, 0, v.keys.length + 1)

/-- The `for` loop of `UniValue::writeObject`, from the index `i` on. -/
def writeObjectLoop (v : UniValue) (ss : Stream) (prettyIndent indentLevel : Nat)
    (i nItems : Nat) : Option Stream :=
  if i < nItems then
    let ss := if prettyIndent ≠ 0 then indentStr ss prettyIndent indentLevel else ss
    match v.keys[i]? with
    | none => none
    | some key =>
      let ss := (jsonEscape (ss.put 34) key).write (lit "\":") 2
      let ss := if prettyIndent ≠ 0 then ss.put 32 else ss
      match h : v.values[i]? with
      | none => none
      | some x =>
        match writeStream x ss prettyIndent ((indentLevel + 1) % UINT_MOD) with
        | none => none
        | some ss =>
          let ss := if i ≠ nItems - 1 then ss.put 44 else ss
          let ss := if prettyIndent ≠ 0 then ss.put 10 else ss
          writeObjectLoop v ss prettyIndent indentLevel (i + 1) nItems
  else some ss
termination_by (sizeOf v, 0, nItems - i)
decreasing_by
  · apply Prod.Lex.left
    have hlt := List.sizeOf_lt_of_mem (List.getElem?_mem h)
    cases v with
    | mk t s k vs =>
      simp only [UniValue.values] at hlt
      simp only [UniValue.mk.sizeOf_spec]
      omega
  · apply Prod.Lex.right; apply Prod.Lex.right; omega

end

/-- `UniValue::write`. -/
def write (v : UniValue) (prettyIndent indentLevel : Nat) : Option (List Byte) :=
  writeStream v [] prettyIndent indentLevel

/-! ## The vocabulary of the statements -/

/-- The text the writer emits for one byte of a string: the replacement text of the table
when the entry of the byte is not a null pointer, the byte itself otherwise. -/
def escapeByte (b : Byte) : List Byte :=
  match escapes.getD (uint8_t b) none with
  | some escStr => escStr
  | none => [b]

/-- The escaped text of a string: the texts of its bytes, in order. -/
def escapeText (s : List Byte) : List Byte := s.flatMap escapeByte

/-- The escaped set of the spec: the double quote, the backslash and the control bytes. -/
def inEscapedSet (b : Byte) : Prop := b.val = 0x22 ∨ b.val = 0x5c ∨ b.val ≤ 0x1f

instance (b : Byte) : Decidable (inEscapedSet b) := by
  unfold inEscapedSet; infer_instance

/-- The value of a hexadecimal digit, of either case. -/
def hexValue (c : Byte) : Option Nat :=
  if 48 ≤ c.val ∧ c.val ≤ 57 then some (c.val - 48)
  else if 97 ≤ c.val ∧ c.val ≤ 102 then some (c.val - 87)
  else if 65 ≤ c.val ∧ c.val ≤ 70 then some (c.val - 55)
  else none

/-- The character a JSON reader decodes from one escape sequence of a string (RFC 8259,
section 7), as a code point; `none` when the text is not one escape sequence. -/
def jsonUnescape : List Byte → Option Nat
  | [92, 34] => some 0x22
  | [92, 92] => some 0x5c
  | [92, 47] => some 0x2f
  | [92, 98] => some 0x08
  | [92, 102] => some 0x0c
  | [92, 110] => some 0x0a
  | [92, 114] => some 0x0d
  | [92, 116] => some 0x09
  | [92, 117, a, b, c, d] =>
    match hexValue a, hexValue b, hexValue c, hexValue d with
    | some x, some y, some z, some w => some (((x * 16 + y) * 16 + z) * 16 + w)
    | _, _, _, _ => none
  | _ => none

/-- The spaces `indentStr` appends in pretty mode, nothing in compact mode. -/
def indentText (p l : Nat) : List Byte :=
  if p ≠ 0 then List.replicate (p * l % UINT_MOD) 32 else []

/-- The newline of pretty mode. -/
def newlineText (p : Nat) : List Byte := if p ≠ 0 then [10] else []

/-- The space after the colon of an entry in pretty mode. -/
def spaceText (p : Nat) : List Byte := if p ≠ 0 then [32] else []

/-- The comma after the element of index `i` of `n`. -/
def commaText (i n : Nat) : List Byte := if i ≠ n - 1 then [44] else []

/-- The texts `write x p l` of the values `xs`, in order; `none` when the write of one of
them has no result. -/
def childTexts (p l : Nat) : List UniValue → Option (List (List Byte))
  | [] => some []
  | x :: xs =>
    match write x p l, childTexts p l xs with
    | some t, some ts => some (t :: ts)
    | _, _ => none

/-- The keys `ks` paired by index with the texts `write x p l` of the values `xs`; `none`
when the values run out before the keys or the write of a paired value has no result. -/
def entryTexts (p l : Nat) :
    List (List Byte) → List UniValue → Option (List (List Byte × List Byte))
  | [], _ => some []
  | _ :: _, [] => none
  | k :: ks, x :: xs =>
    match write x p l, entryTexts p l ks xs with
    | some t, some es => some ((k, t) :: es)
    | _, _ => none

/-- What the loop of `writeArray` appends for the elements of index `i` on, `ts` being the
texts of these elements and `n` the number of elements of the array. -/
def arrayItems (p l n : Nat) : Nat → List (List Byte) → List Byte
  | _, [] => []
  | i, t :: ts =>
    indentText p l ++ t ++ commaText i n ++ newlineText p ++ arrayItems p l n (i + 1) ts

/-- What the loop of `writeObject` appends for the entries of index `i` on. -/
def objectItems (p l n : Nat) : Nat → List (List Byte × List Byte) → List Byte
  | _, [] => []
  | i, (k, t) :: es =>
    indentText p l ++ [34] ++ escapeText k ++ [34, 58] ++ spaceText p ++ t ++
      commaText i n ++ newlineText p ++ objectItems p l n (i + 1) es

/-- The text of one entry of an object in compact mode: the quoted escaped key, a colon and
the text of the value. -/
def compactEntry (k t : List Byte) : List Byte :=
  [34] ++ escapeText k ++ [34] ++ [58] ++ t

/-- The lines of a root-level container in pretty mode: each text after `p` spaces,
followed by a comma unless it is the last one, and by a newline. -/
def prettyLines (p : Nat) : List (List Byte) → List Byte
  | [] => []
  | [t] => List.replicate p 32 ++ t ++ [10]
  | t :: u :: ts => List.replicate p 32 ++ t ++ [44] ++ [10] ++ prettyLines p (u :: ts)

/-- The text of one entry of an object in pretty mode: the quoted escaped key, a colon,
one space and the text of the value. -/
def prettyEntry (k t : List Byte) : List Byte :=
  [34] ++ escapeText k ++ [34] ++ [58] ++ [32] ++ t

mutual

/-- Every Object node of the tree has as many values as keys. -/
def wellFormed : UniValue → Bool
  | .mk .VOBJ _ ks vs => ks.length == vs.length && wellFormedAll vs
  | .mk .VARR _ _ vs => wellFormedAll vs
  | .mk _ _ _ _ => true

/-- All the trees of a list are well formed. -/
def wellFormedAll : List UniValue → Bool
  | [] => true
  | x :: xs => wellFormed x && wellFormedAll xs

end

/-- The effective indent level: the value `modIndent` of `writeStream`. -/
def effective (l : Nat) : Nat := if l = 0 then 1 else l

/-- A space, tab, newline or carriage-return byte. -/
def isWhitespace (b : Byte) : Bool := b.val == 32 || b.val == 9 || b.val == 10 || b.val == 13

/-- The text has no whitespace byte. -/
def whitespaceFree (t : List Byte) : Bool := t.all (fun b => !isWhitespace b)

mutual

/-- No Number payload, no String payload and no Object key of the tree has a whitespace
byte. -/
def payloadsWhitespaceFree : UniValue → Bool
  | .mk .VNUM val _ _ => whitespaceFree val
  | .mk .VSTR val _ _ => whitespaceFree val
  | .mk .VOBJ _ ks vs => ks.all whitespaceFree && payloadsWhitespaceFreeAll vs
  | .mk .VARR _ _ vs => payloadsWhitespaceFreeAll vs
  | .mk _ _ _ _ => true

/-- The payloads and keys of all the trees of a list have no whitespace byte. -/
def payloadsWhitespaceFreeAll : List UniValue → Bool
  | [] => true
  | x :: xs => payloadsWhitespaceFree x && payloadsWhitespaceFreeAll xs

end

/-- A call of one of the three mutually recursive member functions, with the value it is
called on and the `indentLevel` argument it receives. -/
inductive Call where
  | stream (v : UniValue) (indentLevel : Nat)
  | array (v : UniValue) (indentLevel : Nat)
  | object (v : UniValue) (indentLevel : Nat)

/-- The calls a call makes: `writeStream` calls `writeObject` or `writeArray` on the same
value with `modIndent`; the loops of `writeArray` and `writeObject` call `writeStream` on
`values[i]` with `indentLevel + 1`, taken in `unsigned int`. -/
inductive Call.Step : Call → Call → Prop where
  | toObject (v : UniValue) (l : Nat) (h : v.typ = .VOBJ) :
      Call.Step (.stream v l) (.object v (if l = 0 then 1 else l))
  | toArray (v : UniValue) (l : Nat) (h : v.typ = .VARR) :
      Call.Step (.stream v l) (.array v (if l = 0 then 1 else l))
  | arrayElem (v x : UniValue) (l i : Nat) (hi : i < v.values.length)
      (hx : v.values[i]? = some x) :
      Call.Step (.array v l) (.stream x ((l + 1) % UINT_MOD))
  | objectElem (v x : UniValue) (l i : Nat) (hi : i < v.keys.length)
      (hx : v.values[i]? = some x) :
      Call.Step (.object v l) (.stream x ((l + 1) % UINT_MOD))

/-- The calls reachable from a call. -/
def Call.Reaches (c d : Call) : Prop := Relation.ReflTransGen Call.Step c d

/-- The `indentLevel` argument of a call of `writeArray` or `writeObject`; `none` for a call
of `writeStream`. -/
def Call.containerLevel : Call → Option Nat
  | .stream _ _ => none
  | .array _ l => some l
  | .object _ l => some l

/-- The `indentLevel` argument of a call. -/
def Call.level : Call → Nat
  | .stream _ l => l
  | .array _ l => l
  | .object _ l => l

/-- The lines of a container in pretty mode with the indentation `w`: each text after `w`
spaces, followed by a comma unless its index is the last of `n`, and by a newline. -/
def itemLines (w n : Nat) : Nat → List (List Byte) → List Byte
  | _, [] => []
  | i, t :: ts => List.replicate w 32 ++ t ++ commaText i n ++ [10] ++ itemLines w n (i + 1) ts


end UniValueWrite

/-!
The fixed-size blobs (`src/uint256.h`)

A blob of `BITS` bits is the array `data` of `WIDTH = BITS / 8` bytes.  The loops of
`IsNull` and `Compare` run `WIDTH` times; they are written by recursion on the number of
iterations left, next to the index `i`.  Their indices are inside `data`; a read of
`GetUint64`, which trusts its argument, may be outside, and then the model returns `none`.
`uint64_t` arithmetic is arithmetic on `Nat` reduced modulo `2 ^ 64`.
-/

namespace Uint256

/-- The member `WIDTH` of `base_blob`. -/
def WIDTH (BITS : Nat) : Nat := BITS / 8

/-- The class template `base_blob`: the array `uint8_t data[WIDTH]`. -/
structure base_blob (BITS : Nat) where
  data : List (Fin 256)
  size_eq : data.length = WIDTH BITS

/-- The class `uint160`. -/
abbrev uint160 := base_blob 160

/-- The class `uint256`. -/
abbrev uint256 := base_blob 256

/-- The modulus of `uint64_t`. -/
def UINT64_MOD : Nat := 2 ^ 64

namespace base_blob

/-- The byte `data[i]`, as a number, for an index inside `data`. -/
def byte {BITS : Nat} (self : base_blob BITS) (i : Nat) : Nat := (self.data.getD i 0).val

/-- The default constructor `base_blob()`, which zero-initialises `data`. -/
def zero (BITS : Nat) : base_blob BITS :=
  ⟨List.replicate (WIDTH BITS) 0, List.length_replicate _ _⟩

/-- The loop of `IsNull`, with `n` iterations left at the index `i`. -/
def IsNullLoop {BITS : Nat} (self : base_blob BITS) : Nat → Nat → Bool
  | 0, _ => true
  | n + 1, i => if self.byte i ≠ 0 then false else IsNullLoop self n (i + 1)

/-- `base_blob::IsNull`. -/
def IsNull {BITS : Nat} (self : base_blob BITS) : Bool := IsNullLoop self (WIDTH BITS) 0

/-- `base_blob::SetNull`: the `memset` of `data` with 0. -/
def SetNull {BITS : Nat} (_self : base_blob BITS) : base_blob BITS :=
  ⟨List.replicate (WIDTH BITS) 0, List.length_replicate _ _⟩

/-- The loop of `Compare`, with `n` iterations left at the index `i`; `sizeof(data)` is
`WIDTH`. -/
def CompareLoop {BITS : Nat} (self other : base_blob BITS) : Nat → Nat → Int
  | 0, _ => 0
  | n + 1, i =>
    let a := self.byte (WIDTH BITS - 1 - i)
    let b := other.byte (WIDTH BITS - 1 - i)
    if a > b then 1
    else if a < b then -1
    else CompareLoop self other n (i + 1)

/-- `base_blob::Compare`. -/
def Compare {BITS : Nat} (self other : base_blob BITS) : Int :=
  CompareLoop self other (WIDTH BITS) 0

/-- `operator==`. -/
def eq {BITS : Nat} (a b : base_blob BITS) : Bool := decide (a.Compare b = 0)

/-- `operator!=`. -/
def ne {BITS : Nat} (a b : base_blob BITS) : Bool := decide (a.Compare b ≠ 0)

/-- `operator<`. -/
def lt {BITS : Nat} (a b : base_blob BITS) : Bool := decide (a.Compare b < 0)

/-- `operator<=`. -/
def le {BITS : Nat} (a b : base_blob BITS) : Bool := decide (a.Compare b ≤ 0)

/-- `operator>`. -/
def gt {BITS : Nat} (a b : base_blob BITS) : Bool := decide (a.Compare b > 0)

/-- `operator>=`. -/
def ge {BITS : Nat} (a b : base_blob BITS) : Bool := decide (a.Compare b ≥ 0)

/-- The read `ptr[k]` of `GetUint64`, at the index `idx` of `data`: `none` outside `data`. -/
def readAt {BITS : Nat} (self : base_blob BITS) (idx : Int) : Option Nat :=
  if 0 ≤ idx then (self.data[idx.toNat]?).map (fun b => b.val) else none

/-- The term `uint64_t(ptr[k]) << s` of `GetUint64`. -/
def shl64 (b s : Nat) : Nat := (b <<< s) % UINT64_MOD

/-- `base_blob::GetUint64`, with `ptr = data + pos * 8`. -/
def GetUint64 {BITS : Nat} (self : base_blob BITS) (pos : Int) : Option Nat :=
  match self.readAt (pos * 8 + 0), self.readAt (pos * 8 + 1), self.readAt (pos * 8 + 2),
    self.readAt (pos * 8 + 3), self.readAt (pos * 8 + 4), self.readAt (pos * 8 + 5),
    self.readAt (pos * 8 + 6), self.readAt (pos * 8 + 7) with
  | some p0, some p1, some p2, some p3, some p4, some p5, some p6, some p7 =>
    some (p0 ||| shl64 p1 8 ||| shl64 p2 16 ||| shl64 p3 24 ||| shl64 p4 32 |||
      shl64 p5 40 ||| shl64 p6 48 ||| shl64 p7 56)
  | _, _, _, _, _, _, _, _ => none

/-- The value of the first `n` bytes of the blob as a little-endian unsigned integer. -/
def valueBelow {BITS : Nat} (self : base_blob BITS) (n : Nat) : Nat :=
  Finset.sum (Finset.range n) (fun i => self.byte i * 256 ^ i)

/-- The blob as a little-endian unsigned integer: the sum over `i < WIDTH` of
`data[i] * 256 ^ i`. -/
def N {BITS : Nat} (self : base_blob BITS) : Nat := self.valueBelow (WIDTH BITS)

/-- The little-endian 64-bit word of index `pos`: the sum over `k < 8` of
`data[8 * pos + k] * 256 ^ k`. -/
def word {BITS : Nat} (self : base_blob BITS) (pos : Nat) : Nat :=
  Finset.sum (Finset.range 8) (fun k => self.byte (8 * pos + k) * 256 ^ k)

end base_blob

/-- The lexicographic comparison of two tuples: the first place where they differ
decides. -/
def lexCompare : List Nat → List Nat → Int
  | x :: xs, y :: ys => if x > y then 1 else if x < y then -1 else lexCompare xs ys
  | _, _ => 0

end Uint256

namespace UniValueWrite

/-! ## The writer only appends, and what its loops append -/

theorem jsonEscapeStep_eq (ss : Stream) (b : Byte) :
    jsonEscapeStep ss b = ss ++ escapeByte b := by
  unfold jsonEscapeStep escapeByte
  cases escapes.getD (uint8_t b) none <;> simp [Stream.append, Stream.put]

theorem jsonEscape_eq (ss : Stream) (s : List Byte) :
    jsonEscape ss s = ss ++ escapeText s := by
  unfold jsonEscape escapeText
  induction s generalizing ss with
  | nil => simp
  | cons b s ih => simp [List.foldl_cons, ih, jsonEscapeStep_eq, List.flatMap_cons]

theorem ite_indent (ss : Stream) (p l : Nat) :
    (if p ≠ 0 then indentStr ss p l else ss) = ss ++ indentText p l := by
  unfold indentText indentStr Stream.putFill
  split <;> simp

theorem ite_newline (ss : Stream) (p : Nat) :
    (if p ≠ 0 then ss.put 10 else ss) = ss ++ newlineText p := by
  unfold newlineText Stream.put
  split <;> simp

theorem ite_comma (ss : Stream) (i n : Nat) :
    (if i ≠ n - 1 then ss.put 44 else ss) = ss ++ commaText i n := by
  unfold commaText Stream.put
  split <;> simp

theorem writeArrayLoop_eq (v : UniValue) (p l : Nat)
    (hch : ∀ x ∈ v.values, ∀ (ss : Stream) (p l : Nat),
      writeStream x ss p l = (write x p l).map (fun t => ss ++ t)) :
    ∀ (k i : Nat) (ss : Stream), i + k = v.values.length →
      writeArrayLoop v ss p l i v.values.length =
        (childTexts p ((l + 1) % UINT_MOD) (v.values.drop i)).map
          (fun ts => ss ++ arrayItems p l v.values.length i ts) := by
  intro k
  induction k with
  | zero =>
    intro i ss hi
    have hi' : i = v.values.length := by omega
    rw [writeArrayLoop]
    simp [hi', childTexts, arrayItems]
  | succ k ih =>
    intro i ss hi
    have hlt : i < v.values.length := by omega
    rw [writeArrayLoop]
    rw [if_pos hlt]
    have hdrop : v.values.drop i = v.values[i] :: v.values.drop (i + 1) :=
      List.drop_eq_getElem_cons hlt
    have hget : v.values[i]? = some v.values[i] := List.getElem?_eq_getElem hlt
    simp only [ite_indent, ite_newline, ite_comma]
    split
    · rename_i h; rw [hget] at h; cases h
    · rename_i x h
      rw [hget] at h
      cases h
      rw [hch _ (List.getElem_mem hlt)]
      rw [hdrop, childTexts]
      cases hw : write v.values[i] p ((l + 1) % UINT_MOD) with
      | none => simp
      | some t =>
        simp only [Option.map_some']
        rw [ih (i + 1) _ (by omega)]
        cases childTexts p ((l + 1) % UINT_MOD) (v.values.drop (i + 1)) with
        | none => simp
        | some ts => simp [arrayItems]

theorem ite_space (ss : Stream) (p : Nat) :
    (if p ≠ 0 then ss.put 32 else ss) = ss ++ spaceText p := by
  unfold spaceText Stream.put
  split <;> simp

theorem writeObjectLoop_eq (v : UniValue) (p l : Nat)
    (hch : ∀ x ∈ v.values, ∀ (ss : Stream) (p l : Nat),
      writeStream x ss p l = (write x p l).map (fun t => ss ++ t)) :
    ∀ (k i : Nat) (ss : Stream), i + k = v.keys.length →
      writeObjectLoop v ss p l i v.keys.length =
        (entryTexts p ((l + 1) % UINT_MOD) (v.keys.drop i) (v.values.drop i)).map
          (fun es => ss ++ objectItems p l v.keys.length i es) := by
  intro k
  induction k with
  | zero =>
    intro i ss hi
    have hi' : i = v.keys.length := by omega
    rw [writeObjectLoop]
    simp [hi', entryTexts, objectItems]
  | succ k ih =>
    intro i ss hi
    have hlt : i < v.keys.length := by omega
    rw [writeObjectLoop]
    rw [if_pos hlt]
    have hdropk : v.keys.drop i = v.keys[i] :: v.keys.drop (i + 1) :=
      List.drop_eq_getElem_cons hlt
    have hgetk : v.keys[i]? = some v.keys[i] := List.getElem?_eq_getElem hlt
    simp only [ite_indent, ite_newline, ite_comma, ite_space, hgetk, jsonEscape_eq]
    split
    · rename_i h
      have hge : v.values.length ≤ i := by
        rcases Nat.lt_or_ge i v.values.length with h1 | h1
        · rw [List.getElem?_eq_getElem h1] at h; cases h
        · exact h1
      rw [hdropk, List.drop_eq_nil_of_le hge]
      simp [entryTexts]
    · rename_i x h
      have hlv : i < v.values.length := by
        rcases Nat.lt_or_ge i v.values.length with h1 | h1
        · exact h1
        · rw [List.getElem?_eq_none h1] at h; cases h
      have hdrop : v.values.drop i = v.values[i] :: v.values.drop (i + 1) :=
        List.drop_eq_getElem_cons hlv
      rw [List.getElem?_eq_getElem hlv] at h
      cases h
      rw [hch _ (List.getElem_mem hlv)]
      rw [hdropk, hdrop, entryTexts]
      cases hw : write v.values[i] p ((l + 1) % UINT_MOD) with
      | none => simp
      | some t =>
        simp only [Option.map_some']
        rw [ih (i + 1) _ (by omega)]
        cases entryTexts p ((l + 1) % UINT_MOD) (v.keys.drop (i + 1))
            (v.values.drop (i + 1)) with
        | none => simp
        | some es => simp [objectItems, Stream.put, Stream.write, lit]

theorem writeArray_eq_of (v : UniValue) (ss : Stream) (p l : Nat)
    (hch : ∀ x ∈ v.values, ∀ (ss : Stream) (p l : Nat),
      writeStream x ss p l = (write x p l).map (fun t => ss ++ t)) :
    writeArray v ss p l =
      (childTexts p ((l + 1) % UINT_MOD) v.values).map
        (fun ts => ss ++ ([91] ++ newlineText p ++ arrayItems p l v.values.length 0 ts ++
          indentText p ((l + UINT_MOD - 1) % UINT_MOD) ++ [93])) := by
  rw [writeArray]
  simp only [ite_indent, ite_newline]
  rw [writeArrayLoop_eq v p l hch v.values.length 0 _ (by omega)]
  simp only [List.drop_zero]
  cases childTexts p ((l + 1) % UINT_MOD) v.values with
  | none => simp
  | some ts => simp [Stream.put]

theorem writeObject_eq_of (v : UniValue) (ss : Stream) (p l : Nat)
    (hch : ∀ x ∈ v.values, ∀ (ss : Stream) (p l : Nat),
      writeStream x ss p l = (write x p l).map (fun t => ss ++ t)) :
    writeObject v ss p l =
      (entryTexts p ((l + 1) % UINT_MOD) v.keys v.values).map
        (fun es => ss ++ ([123] ++ newlineText p ++ objectItems p l v.keys.length 0 es ++
          indentText p ((l + UINT_MOD - 1) % UINT_MOD) ++ [125])) := by
  rw [writeObject]
  simp only [ite_indent, ite_newline]
  rw [writeObjectLoop_eq v p l hch v.keys.length 0 _ (by omega)]
  simp only [List.drop_zero]
  cases entryTexts p ((l + 1) % UINT_MOD) v.keys v.values with
  | none => simp
  | some ts => simp [Stream.put]

theorem UniValue.sizeOf_lt_of_mem {v x : UniValue} (h : x ∈ v.values) :
    sizeOf x < sizeOf v := by
  have hlt := List.sizeOf_lt_of_mem h
  cases v with
  | mk t s k vs =>
    simp only [UniValue.values] at hlt
    simp only [UniValue.mk.sizeOf_spec]
    omega

/-- The writer only appends to its sink. -/
theorem writeStream_eq_append_aux (n : Nat) :
    ∀ (v : UniValue), sizeOf v = n → ∀ (ss : Stream) (p l : Nat),
      writeStream v ss p l = (write v p l).map (fun t => ss ++ t) := by
  induction n using Nat.strong_induction_on with
  | _ n ih =>
    intro v hn ss p l
    have hch : ∀ x ∈ v.values, ∀ (ss : Stream) (p l : Nat),
        writeStream x ss p l = (write x p l).map (fun t => ss ++ t) := by
      intro x hx
      exact ih (sizeOf x) (hn ▸ UniValue.sizeOf_lt_of_mem hx) x rfl
    unfold write
    rw [writeStream, writeStream]
    cases v.typ with
    | VNULL => simp [Stream.write]
    | VOBJ =>
      simp only [writeObject_eq_of v _ p _ hch]
      cases entryTexts p _ v.keys v.values <;> simp
    | VARR =>
      simp only [writeArray_eq_of v _ p _ hch]
      cases childTexts p _ v.values <;> simp
    | VSTR => simp [jsonEscape_eq, Stream.put]
    | VNUM => simp [Stream.append]
    | VBOOL => by_cases h : v.val = lit "1" <;> simp [h, Stream.write]

/-- The writer only appends to its sink. -/
theorem writeStream_eq_append (v : UniValue) (ss : Stream) (p l : Nat) :
    writeStream v ss p l = (write v p l).map (fun t => ss ++ t) :=
  writeStream_eq_append_aux (sizeOf v) v rfl ss p l

/-! ## The text of each kind of value -/

theorem write_null (val : List Byte) (keys : List (List Byte)) (values : List UniValue)
    (p l : Nat) : write (.mk .VNULL val keys values) p l = some (lit "null") := by
  unfold write
  rw [writeStream]
  simp [UniValue.typ, Stream.write, lit]

theorem write_bool (val : List Byte) (keys : List (List Byte)) (values : List UniValue)
    (p l : Nat) :
    write (.mk .VBOOL val keys values) p l =
      some (if val = lit "1" then lit "true" else lit "false") := by
  unfold write
  rw [writeStream]
  simp only [UniValue.typ, UniValue.val]
  by_cases h : val = lit "1"
  · rw [if_pos h, if_pos h]; simp [Stream.write, lit]
  · rw [if_neg h, if_neg h]; simp [Stream.write, lit]

theorem write_num (val : List Byte) (keys : List (List Byte)) (values : List UniValue)
    (p l : Nat) : write (.mk .VNUM val keys values) p l = some val := by
  unfold write
  rw [writeStream]
  simp [UniValue.typ, UniValue.val, Stream.append]

theorem write_str (val : List Byte) (keys : List (List Byte)) (values : List UniValue)
    (p l : Nat) :
    write (.mk .VSTR val keys values) p l = some ([34] ++ escapeText val ++ [34]) := by
  unfold write
  rw [writeStream]
  simp [UniValue.typ, UniValue.val, Stream.put, jsonEscape_eq]

/-- The level a container is written at: the floor substitution of `writeStream`. -/
theorem write_arr (val : List Byte) (keys : List (List Byte)) (values : List UniValue)
    (p l : Nat) :
    write (.mk .VARR val keys values) p l =
      (childTexts p (((if l = 0 then 1 else l) + 1) % UINT_MOD) values).map
        (fun ts => [91] ++ newlineText p ++
          arrayItems p (if l = 0 then 1 else l) values.length 0 ts ++
          indentText p (((if l = 0 then 1 else l) + UINT_MOD - 1) % UINT_MOD) ++ [93]) := by
  unfold write
  rw [writeStream]
  simp only [UniValue.typ]
  rw [writeArray_eq_of _ _ _ _ (fun x _ => writeStream_eq_append x)]
  simp [UniValue.values]

theorem write_obj (val : List Byte) (keys : List (List Byte)) (values : List UniValue)
    (p l : Nat) :
    write (.mk .VOBJ val keys values) p l =
      (entryTexts p (((if l = 0 then 1 else l) + 1) % UINT_MOD) keys values).map
        (fun es => [123] ++ newlineText p ++
          objectItems p (if l = 0 then 1 else l) keys.length 0 es ++
          indentText p (((if l = 0 then 1 else l) + UINT_MOD - 1) % UINT_MOD) ++ [125]) := by
  unfold write
  rw [writeStream]
  simp only [UniValue.typ]
  rw [writeObject_eq_of _ _ _ _ (fun x _ => writeStream_eq_append x)]
  simp [UniValue.values, UniValue.keys]

theorem childTexts_length (p l : Nat) :
    ∀ (xs : List UniValue) (ts : List (List Byte)),
      childTexts p l xs = some ts → ts.length = xs.length := by
  intro xs
  induction xs with
  | nil => intro ts h; simp [childTexts] at h; simp [h]
  | cons x xs ih =>
    intro ts h
    rw [childTexts] at h
    cases hw : write x p l with
    | none => simp [hw] at h
    | some t =>
      cases hc : childTexts p l xs with
      | none => simp [hw, hc] at h
      | some us =>
        simp [hw, hc] at h
        subst h
        simp [ih us hc]

theorem childTexts_congr (p l m : Nat) :
    ∀ (xs : List UniValue), (∀ x ∈ xs, write x p l = write x p m) →
      childTexts p l xs = childTexts p m xs := by
  intro xs
  induction xs with
  | nil => intro _; rfl
  | cons x xs ih =>
    intro h
    rw [childTexts, childTexts, h x (List.mem_cons_self _ _),
      ih (fun y hy => h y (List.mem_cons_of_mem _ hy))]

/-- With equally many keys and values the entries are the keys zipped with the texts of
the values. -/
theorem entryTexts_eq_zip (p l : Nat) :
    ∀ (ks : List (List Byte)) (xs : List UniValue), ks.length = xs.length →
      entryTexts p l ks xs = (childTexts p l xs).map (fun ts => List.zip ks ts) := by
  intro ks
  induction ks with
  | nil =>
    intro xs h
    cases xs with
    | nil => simp [entryTexts, childTexts]
    | cons x xs => simp at h
  | cons k ks ih =>
    intro xs h
    cases xs with
    | nil => simp at h
    | cons x xs =>
      rw [entryTexts, childTexts, ih xs (by simpa using h)]
      cases write x p l <;> cases childTexts p l xs <;> simp

theorem entryTexts_none_of_lt (p l : Nat) :
    ∀ (ks : List (List Byte)) (xs : List UniValue), xs.length < ks.length →
      entryTexts p l ks xs = none := by
  intro ks
  induction ks with
  | nil => intro xs h; simp at h
  | cons k ks ih =>
    intro xs h
    cases xs with
    | nil => simp [entryTexts]
    | cons x xs =>
      rw [entryTexts, ih xs (by simpa using h)]
      cases write x p l <;> simp

theorem intercalate_cons_cons {α : Type} (sep a b : List α) (r : List (List α)) :
    List.intercalate sep (a :: b :: r) = a ++ sep ++ List.intercalate sep (b :: r) := by
  simp [List.intercalate, List.intersperse]

theorem intercalate_single {α : Type} (sep a : List α) :
    List.intercalate sep [a] = a := by
  simp [List.intercalate, List.intersperse]

/-- In compact mode the loop of `writeArray` joins the texts with commas. -/
theorem arrayItems_compact (l n : Nat) :
    ∀ (ts : List (List Byte)) (i : Nat), i + ts.length = n →
      arrayItems 0 l n i ts = List.intercalate [44] ts := by
  intro ts
  induction ts with
  | nil => intro i _; simp [arrayItems, List.intercalate]
  | cons t ts ih =>
    intro i h
    cases ts with
    | nil =>
      have hi : i = n - 1 := by simp at h; omega
      simp [arrayItems, indentText, newlineText, commaText, hi, intercalate_single]
    | cons u us =>
      have hi : i ≠ n - 1 := by simp at h; omega
      rw [arrayItems, ih (i + 1) (by simp at h ⊢; omega), intercalate_cons_cons]
      simp [indentText, newlineText, commaText, hi]

/-- In compact mode the loop of `writeObject` joins the entries with commas. -/
theorem objectItems_compact (l n : Nat) :
    ∀ (es : List (List Byte × List Byte)) (i : Nat), i + es.length = n →
      objectItems 0 l n i es =
        List.intercalate [44] (es.map (fun e => compactEntry e.1 e.2)) := by
  intro es
  induction es with
  | nil => intro i _; simp [objectItems, List.intercalate]
  | cons e es ih =>
    intro i h
    obtain ⟨k, t⟩ := e
    cases es with
    | nil =>
      have hi : i = n - 1 := by simp at h; omega
      simp [objectItems, indentText, newlineText, commaText, spaceText, hi,
        intercalate_single, compactEntry]
    | cons u us =>
      have hi : i ≠ n - 1 := by simp at h; omega
      rw [objectItems, ih (i + 1) (by simp at h ⊢; omega)]
      simp only [List.map_cons]
      rw [intercalate_cons_cons]
      simp [indentText, newlineText, commaText, spaceText, hi, compactEntry]

/-- In pretty mode, at a level whose indentation is `p` spaces, the loop of `writeArray`
appends the lines of the elements. -/
theorem arrayItems_pretty (p l n : Nat) (hp : p ≠ 0) (hl : p * l % UINT_MOD = p) :
    ∀ (ts : List (List Byte)) (i : Nat), i + ts.length = n →
      arrayItems p l n i ts = prettyLines p ts := by
  intro ts
  induction ts with
  | nil => intro i _; simp [arrayItems, prettyLines]
  | cons t ts ih =>
    intro i h
    cases ts with
    | nil =>
      have hi : i = n - 1 := by simp at h; omega
      simp [arrayItems, indentText, newlineText, commaText, hi, prettyLines, hp, hl]
    | cons u us =>
      have hi : i ≠ n - 1 := by simp at h; omega
      rw [arrayItems, ih (i + 1) (by simp at h ⊢; omega)]
      simp only [prettyLines]
      simp [indentText, newlineText, commaText, hi, hp, hl]

theorem objectItems_pretty (p l n : Nat) (hp : p ≠ 0) (hl : p * l % UINT_MOD = p) :
    ∀ (es : List (List Byte × List Byte)) (i : Nat), i + es.length = n →
      objectItems p l n i es = prettyLines p (es.map (fun e => prettyEntry e.1 e.2)) := by
  intro es
  induction es with
  | nil => intro i _; simp [objectItems, prettyLines]
  | cons e es ih =>
    intro i h
    obtain ⟨k, t⟩ := e
    cases es with
    | nil =>
      have hi : i = n - 1 := by simp at h; omega
      simp [objectItems, indentText, newlineText, commaText, spaceText, hi, prettyLines,
        prettyEntry, hp, hl]
    | cons u us =>
      have hi : i ≠ n - 1 := by simp at h; omega
      rw [objectItems, ih (i + 1) (by simp at h ⊢; omega)]
      simp only [List.map_cons, prettyLines]
      simp [indentText, newlineText, commaText, spaceText, hi, prettyEntry, hp, hl]

theorem entryTexts_length (p l : Nat) :
    ∀ (ks : List (List Byte)) (xs : List UniValue) (es : List (List Byte × List Byte)),
      entryTexts p l ks xs = some es → es.length = ks.length := by
  intro ks
  induction ks with
  | nil => intro xs es h; simp [entryTexts] at h; simp [h]
  | cons k ks ih =>
    intro xs es h
    cases xs with
    | nil => simp [entryTexts] at h
    | cons x xs =>
      rw [entryTexts] at h
      cases hw : write x p l with
      | none => simp [hw] at h
      | some t =>
        cases hc : entryTexts p l ks xs with
        | none => simp [hw, hc] at h
        | some us =>
          simp [hw, hc] at h
          subst h
          simp [ih xs us hc]

theorem entryTexts_congr (p l m : Nat) :
    ∀ (ks : List (List Byte)) (xs : List UniValue),
      (∀ x ∈ xs, write x p l = write x p m) →
      entryTexts p l ks xs = entryTexts p m ks xs := by
  intro ks
  induction ks with
  | nil => intro xs _; simp [entryTexts]
  | cons k ks ih =>
    intro xs h
    cases xs with
    | nil => simp [entryTexts]
    | cons x xs =>
      rw [entryTexts, entryTexts, h x (List.mem_cons_self _ _),
        ih xs (fun y hy => h y (List.mem_cons_of_mem _ hy))]

/-- The compact text of an array, at any level. -/
theorem write_arr_compact (val : List Byte) (keys : List (List Byte))
    (values : List UniValue) (l : Nat) :
    write (.mk .VARR val keys values) 0 l =
      (childTexts 0 (((if l = 0 then 1 else l) + 1) % UINT_MOD) values).map
        (fun ts => [91] ++ List.intercalate [44] ts ++ [93]) := by
  rw [write_arr]
  cases hc : childTexts 0 (((if l = 0 then 1 else l) + 1) % UINT_MOD) values with
  | none => rfl
  | some ts =>
    have hlen := childTexts_length _ _ _ _ hc
    simp [arrayItems_compact _ values.length ts 0 (by omega), newlineText, indentText]

/-- The compact text of an object, at any level. -/
theorem write_obj_compact (val : List Byte) (keys : List (List Byte))
    (values : List UniValue) (l : Nat) :
    write (.mk .VOBJ val keys values) 0 l =
      (entryTexts 0 (((if l = 0 then 1 else l) + 1) % UINT_MOD) keys values).map
        (fun es => [123] ++
          List.intercalate [44] (es.map (fun e => compactEntry e.1 e.2)) ++ [125]) := by
  rw [write_obj]
  cases hc : entryTexts 0 (((if l = 0 then 1 else l) + 1) % UINT_MOD) keys values with
  | none => rfl
  | some es =>
    have hlen := entryTexts_length _ _ _ _ _ hc
    simp [objectItems_compact _ keys.length es 0 (by omega), newlineText, indentText]

theorem write_compact_level_aux (n : Nat) :
    ∀ (v : UniValue), sizeOf v = n → ∀ (l m : Nat), write v 0 l = write v 0 m := by
  induction n using Nat.strong_induction_on with
  | _ n ih =>
    intro v hn l m
    have hch : ∀ x ∈ v.values, ∀ (l m : Nat), write x 0 l = write x 0 m := by
      intro x hx
      exact ih (sizeOf x) (hn ▸ UniValue.sizeOf_lt_of_mem hx) x rfl
    cases v with
    | mk t val ks xs =>
      cases t with
      | VNULL => rw [write_null, write_null]
      | VOBJ =>
        rw [write_obj_compact, write_obj_compact,
          entryTexts_congr 0 _ (((if m = 0 then 1 else m) + 1) % UINT_MOD) ks xs
            (fun x hx => hch x hx _ _)]
      | VARR =>
        rw [write_arr_compact, write_arr_compact,
          childTexts_congr 0 _ (((if m = 0 then 1 else m) + 1) % UINT_MOD) xs
            (fun x hx => hch x hx _ _)]
      | VSTR => rw [write_str, write_str]
      | VNUM => rw [write_num, write_num]
      | VBOOL => rw [write_bool, write_bool]

/-- In compact mode the text of a value does not depend on the indent level. -/
theorem write_compact_level (v : UniValue) (l m : Nat) : write v 0 l = write v 0 m :=
  write_compact_level_aux (sizeOf v) v rfl l m

theorem escapes_length : escapes.length = 256 := by
  simp [escapes]

theorem escapes_getD (b : Byte) : escapes.getD (uint8_t b) none = escapeEntry b.val := by
  have hb : b.val < 256 := b.isLt
  simp [escapes, uint8_t, List.getD, List.getElem?_map, List.getElem?_range hb]

/-! ## Auxiliary facts for the claims -/

set_option maxRecDepth 100000 in
theorem escapeEntry_cases : ∀ b : Byte,
    (inEscapedSet b ∧ (escapeEntry b.val).isSome = true ∧
      (escapeEntry b.val).bind jsonUnescape = some b.val) ∨
    (¬ inEscapedSet b ∧ escapeEntry b.val = none) := by
  decide

theorem jsonEscape_single (ss : Stream) (b : Byte) :
    jsonEscape ss [b] = ss ++ escapeByte b := by
  rw [jsonEscape_eq]; simp [escapeText]

theorem map_zip_entry (f : List Byte → List Byte → List Byte) (ks ts : List (List Byte)) :
    (List.zip ks ts).map (fun e => f e.1 e.2) = List.zipWith f ks ts := by
  rw [List.zip_eq_zipWith, List.map_zipWith]

theorem root_levels (p : Nat) (hlt : p < UINT_MOD) :
    ((if (0 : Nat) = 0 then 1 else 0) + 1) % UINT_MOD = 2 ∧
    p * (if (0 : Nat) = 0 then 1 else 0) % UINT_MOD = p ∧
    ((if (0 : Nat) = 0 then 1 else 0) + UINT_MOD - 1) % UINT_MOD = 0 := by
  refine ⟨by decide, ?_, by simp [UINT_MOD]⟩
  simp [Nat.mod_eq_of_lt hlt]

theorem wellFormedAll_iff (xs : List UniValue) :
    wellFormedAll xs = true ↔ ∀ x ∈ xs, wellFormed x = true := by
  induction xs with
  | nil => simp [wellFormedAll]
  | cons x xs ih => simp [wellFormedAll, ih]

theorem childTexts_some (p l : Nat) :
    ∀ (xs : List UniValue), (∀ x ∈ xs, ∃ t, write x p l = some t) →
      ∃ ts, childTexts p l xs = some ts := by
  intro xs
  induction xs with
  | nil => intro _; exact ⟨[], rfl⟩
  | cons x xs ih =>
    intro h
    obtain ⟨t, ht⟩ := h x (List.mem_cons_self _ _)
    obtain ⟨ts, hts⟩ := ih (fun y hy => h y (List.mem_cons_of_mem _ hy))
    exact ⟨t :: ts, by rw [childTexts, ht, hts]⟩

theorem write_some_aux (n : Nat) :
    ∀ (v : UniValue), sizeOf v = n → wellFormed v = true →
      ∀ (p l : Nat), ∃ t, write v p l = some t := by
  induction n using Nat.strong_induction_on with
  | _ n ih =>
    intro v hn hwf p l
    cases v with
    | mk t val ks xs =>
      have hch : ∀ x ∈ xs, wellFormed x = true → ∀ (p l : Nat), ∃ t, write x p l = some t := by
        intro x hx
        have hlt : sizeOf x < sizeOf (UniValue.mk t val ks xs) :=
          UniValue.sizeOf_lt_of_mem (v := UniValue.mk t val ks xs) hx
        exact ih (sizeOf x) (hn ▸ hlt) x rfl
      cases t with
      | VNULL => exact ⟨_, write_null _ _ _ _ _⟩
      | VOBJ =>
        simp only [wellFormed, Bool.and_eq_true, beq_iff_eq] at hwf
        obtain ⟨ts, hts⟩ := childTexts_some p (((if l = 0 then 1 else l) + 1) % UINT_MOD) xs
          (fun x hx => hch x hx ((wellFormedAll_iff xs).mp hwf.2 x hx) _ _)
        rw [write_obj, entryTexts_eq_zip _ _ _ _ hwf.1, hts]
        exact ⟨_, rfl⟩
      | VARR =>
        simp only [wellFormed] at hwf
        obtain ⟨ts, hts⟩ := childTexts_some p (((if l = 0 then 1 else l) + 1) % UINT_MOD) xs
          (fun x hx => hch x hx ((wellFormedAll_iff xs).mp hwf x hx) _ _)
        rw [write_arr, hts]
        exact ⟨_, rfl⟩
      | VSTR => exact ⟨_, write_str _ _ _ _ _⟩
      | VNUM => exact ⟨_, write_num _ _ _ _ _⟩
      | VBOOL => exact ⟨_, write_bool _ _ _ _ _⟩

/-- On a well-formed tree the writer has a result. -/
theorem write_some (v : UniValue) (h : wellFormed v = true) (p l : Nat) :
    ∃ t, write v p l = some t :=
  write_some_aux (sizeOf v) v rfl h p l

theorem indent_level_pred (p l : Nat) (hp : 0 < p) (hl : 2 ≤ l)
    (hm : p * (l - 1) < UINT_MOD) :
    p * (((if l = 0 then 1 else l) + UINT_MOD - 1) % UINT_MOD) % UINT_MOD = p * (l - 1) := by
  have h1 : l - 1 < UINT_MOD := lt_of_le_of_lt (Nat.le_mul_of_pos_left _ hp) hm
  have h2 : (if l = 0 then 1 else l) = l := by rw [if_neg (by omega)]
  have h3 : l + UINT_MOD - 1 = (l - 1) + UINT_MOD := by omega
  rw [h2, h3, Nat.add_mod_right, Nat.mod_eq_of_lt h1, Nat.mod_eq_of_lt hm]

theorem writeObjectLoop_none (v : UniValue) (ss : Stream) (p l : Nat)
    (h : v.values.length < v.keys.length) :
    writeObjectLoop v ss p l v.values.length v.keys.length = none := by
  rw [writeObjectLoop, if_pos h]
  simp only [List.getElem?_eq_getElem h]
  split
  · rfl
  · rename_i x hx
    rw [List.getElem?_eq_none (Nat.le_refl _)] at hx
    cases hx

/-! ## The claims -/

/-- C1: for every prettyIndent and indentLevel, `write` on a scalar returns exactly `null`
for a Null, `true` for a Bool whose payload is the string "1" and `false` for a Bool with any
other payload (the payload "0" included), and for a Number the payload itself, byte for
byte. -/
theorem write_scalar (val : List Byte) (keys : List (List Byte)) (values : List UniValue)
    (prettyIndent indentLevel : Nat) :
    write (.mk .VNULL val keys values) prettyIndent indentLevel = some (lit "null") ∧
    write (.mk .VBOOL (lit "1") keys values) prettyIndent indentLevel = some (lit "true") ∧
    write (.mk .VBOOL (lit "0") keys values) prettyIndent indentLevel = some (lit "false") ∧
    write (.mk .VBOOL val keys values) prettyIndent indentLevel =
      some (if val = lit "1" then lit "true" else lit "false") ∧
    write (.mk .VNUM val keys values) prettyIndent indentLevel = some val := by
  refine ⟨write_null _ _ _ _ _, ?_, ?_, write_bool _ _ _ _ _, write_num _ _ _ _ _⟩
  · rw [write_bool, if_pos rfl]
  · rw [write_bool, if_neg (by decide)]

/-- C2: for every String value with payload `s` and every prettyIndent and indentLevel,
`write` returns a double quote, then for each byte of `s` in order the replacement text of the
escape table when the entry of the byte is not null and the byte itself otherwise, then a
double quote; the index `uint8_t(ch)` is inside the table for every byte, so the byte-wise text
is that of the entry read inside the table. -/
theorem write_string (s : List Byte) (keys : List (List Byte)) (values : List UniValue)
    (prettyIndent indentLevel : Nat) :
    write (.mk .VSTR s keys values) prettyIndent indentLevel =
      some ([34] ++ s.flatMap escapeByte ++ [34]) ∧
    ∀ b : Byte, ∃ h : uint8_t b < escapes.length,
      escapeByte b = (escapes.get ⟨uint8_t b, h⟩).getD [b] := by
  refine ⟨write_str _ _ _ _ _, ?_⟩
  intro b
  have h : uint8_t b < escapes.length := by
    rw [escapes_length]; exact b.isLt
  refine ⟨h, ?_⟩
  unfold escapeByte
  rw [List.getD_eq_getElem?_getD, List.getElem?_eq_getElem h]
  simp only [Option.getD_some, List.get_eq_getElem]
  cases escapes[uint8_t b] <;> rfl

/-- C3: the bytes `jsonEscape` replaces are exactly the double quote (0x22), the backslash
(0x5C) and the control bytes 0x00..0x1F: for a byte of that set the table has a replacement
text, which is a JSON escape sequence decoding to that byte, and `jsonEscape` appends it; for
every other byte the entry is null and `jsonEscape` appends the byte itself, unmodified. -/
theorem jsonEscape_escaped_set (b : Byte) (ss : Stream) :
    (inEscapedSet b ∧ ∃ t, escapes.getD (uint8_t b) none = some t ∧
      jsonUnescape t = some b.val ∧ jsonEscape ss [b] = ss ++ t) ∨
    (¬ inEscapedSet b ∧ escapes.getD (uint8_t b) none = none ∧
      jsonEscape ss [b] = ss ++ [b]) := by
  rw [jsonEscape_single, escapes_getD]
  unfold escapeByte
  rw [escapes_getD]
  rcases escapeEntry_cases b with ⟨hin, hsome, hdec⟩ | ⟨hout, hnone⟩
  · left
    obtain ⟨t, ht⟩ := Option.isSome_iff_exists.mp hsome
    rw [ht] at hdec ⊢
    exact ⟨hin, t, rfl, hdec, rfl⟩
  · right
    rw [hnone]
    exact ⟨hout, rfl, rfl⟩

/-- C4: for every Array with elements `xs` and every indentLevel `l`, the compact output is
`[`, then the compact outputs of the elements in array order, joined by one `,` between
consecutive elements and none after the last, then `]` (the compact output of an element
being its output at any level `m`); and the array of the numbers 1 and 2 gives `[1,2]`. -/
theorem write_array_compact (val : List Byte) (keys : List (List Byte))
    (xs : List UniValue) (l m : Nat) :
    write (.mk .VARR val keys xs) 0 l =
      (childTexts 0 m xs).map (fun ts => [91] ++ List.intercalate [44] ts ++ [93]) ∧
    write (mkArr [mkNum (lit "1"), mkNum (lit "2")]) 0 l = some (lit "[1,2]") := by
  constructor
  · rw [write_arr_compact,
      childTexts_congr 0 _ m xs (fun x _ => write_compact_level x _ _)]
  · rw [mkArr, write_arr_compact]
    simp only [childTexts, mkNum, write_num, Option.map_some']
    decide

/-- C5: for every Object whose keys `ks` and values `xs` have equal length (keys may repeat)
and every indentLevel `l`, the compact output is an opening brace, then the entries in
insertion order joined by one `,`, then a closing brace, the entry of index i being the key
of index i escaped and between double quotes, `:` and the compact output of the value of
index i (its output at any level `m`). -/
theorem write_object_compact (val : List Byte) (ks : List (List Byte))
    (xs : List UniValue) (l m : Nat) (h : ks.length = xs.length) :
    write (.mk .VOBJ val ks xs) 0 l =
      (childTexts 0 m xs).map
        (fun ts => [123] ++ List.intercalate [44] (List.zipWith compactEntry ks ts) ++
          [125]) := by
  rw [write_obj_compact, entryTexts_eq_zip _ _ _ _ h,
    childTexts_congr 0 _ m xs (fun x _ => write_compact_level x _ _)]
  cases childTexts 0 m xs with
  | none => rfl
  | some ts => simp [map_zip_entry]

set_option maxRecDepth 100000 in
/-- C5 at the object with the one entry "a": true, which gives the text {"a":true}. -/
theorem write_object_compact_witness :
    [lit "a"].length = [mkBool (lit "1")].length ∧
    write (mkObj [lit "a"] [mkBool (lit "1")]) 0 0 = some (lit "\x7b\"a\":true\x7d") := by
  refine ⟨rfl, ?_⟩
  rw [mkObj, write_object_compact [] [lit "a"] [mkBool (lit "1")] 0 0 rfl]
  simp only [childTexts, mkBool, write_bool, Option.map_some']
  decide

/-- C6: for every Array with elements `xs` (non-empty or not) and every prettyIndent `p` with
0 < p < 2^32, the root-level output `write(array, p, 0)` is `[` and a newline, then for each
element in order `p` spaces, the text of the element as `writeStream` emits it with the same
`p` at indent level 2, a `,` unless it is the last element, and a newline; then `]` with no
space before it. -/
theorem write_array_pretty_root (val : List Byte) (keys : List (List Byte))
    (xs : List UniValue) (p : Nat) (hp : 0 < p) (hlt : p < UINT_MOD) :
    write (.mk .VARR val keys xs) p 0 =
      (childTexts p 2 xs).map (fun ts => lit "[\n" ++ prettyLines p ts ++ [93]) := by
  obtain ⟨h2, hw, h0⟩ := root_levels p hlt
  have hp0 : p ≠ 0 := by omega
  rw [write_arr, h2, h0]
  cases hc : childTexts p 2 xs with
  | none => rfl
  | some ts =>
    have hlen := childTexts_length _ _ _ _ hc
    rw [Option.map_some', Option.map_some',
      arrayItems_pretty p _ xs.length hp0 hw ts 0 (by omega)]
    simp [newlineText, indentText, hp0, lit]

/-- C6 at the array of the number 1 with a two-space indent, which gives the three lines
`[`, two spaces and `1`, and `]`. -/
theorem write_array_pretty_root_witness :
    0 < 2 ∧ 2 < UINT_MOD ∧
    write (mkArr [mkNum (lit "1")]) 2 0 = some (lit "[\n  1\n]") := by
  refine ⟨by decide, by decide, ?_⟩
  rw [mkArr, write_array_pretty_root [] [] [mkNum (lit "1")] 2 (by decide) (by decide)]
  simp only [childTexts, mkNum, write_num, Option.map_some']
  decide

/-- C7: for every Object with equally many keys `ks` and values `xs` (non-empty or not) and
every prettyIndent `p` with 0 < p < 2^32, the root-level output `write(object, p, 0)` is an
opening brace and a newline, then for each entry in order `p` spaces, a double quote, the
escaped key, a double quote, `:`, exactly one space, the text of the value as `writeStream`
emits it with the same `p` at indent level 2, a `,` unless it is the last entry, and a
newline; then a closing brace with no space before it. -/
theorem write_object_pretty_root (val : List Byte) (ks : List (List Byte))
    (xs : List UniValue) (p : Nat) (h : ks.length = xs.length) (hp : 0 < p)
    (hlt : p < UINT_MOD) :
    write (.mk .VOBJ val ks xs) p 0 =
      (childTexts p 2 xs).map
        (fun ts => lit "\x7b\n" ++ prettyLines p (List.zipWith prettyEntry ks ts) ++ [125]) := by
  obtain ⟨h2, hw, h0⟩ := root_levels p hlt
  have hp0 : p ≠ 0 := by omega
  rw [write_obj, h2, h0]
  cases hc : entryTexts p 2 ks xs with
  | none =>
    rw [entryTexts_eq_zip _ _ _ _ h] at hc
    cases hc2 : childTexts p 2 xs with
    | none => rfl
    | some ts => rw [hc2] at hc; cases hc
  | some es =>
    have hlen := entryTexts_length _ _ _ _ _ hc
    rw [entryTexts_eq_zip _ _ _ _ h] at hc
    cases hc2 : childTexts p 2 xs with
    | none => rw [hc2] at hc; cases hc
    | some ts =>
      rw [hc2] at hc
      simp only [Option.map_some', Option.some.injEq] at hc
      subst hc
      rw [Option.map_some', Option.map_some',
        objectItems_pretty p _ ks.length hp0 hw _ 0 (by omega)]
      simp [newlineText, indentText, hp0, map_zip_entry, lit]

set_option maxRecDepth 100000 in
/-- C7 at the object with the entries "a": true and "a": null (the key repeated) with a
one-space indent. -/
theorem write_object_pretty_root_witness :
    [lit "a", lit "a"].length = [mkBool (lit "1"), mkNull].length ∧ 0 < 1 ∧ 1 < UINT_MOD ∧
    write (mkObj [lit "a", lit "a"] [mkBool (lit "1"), mkNull]) 1 0 =
      some (lit "\x7b\n \"a\": true,\n \"a\": null\n\x7d") := by
  refine ⟨rfl, by decide, by decide, ?_⟩
  rw [mkObj, write_object_pretty_root [] [lit "a", lit "a"] [mkBool (lit "1"), mkNull] 1 rfl
    (by decide) (by decide)]
  simp only [childTexts, mkBool, mkNull, write_bool, write_null, Option.map_some']
  decide

/-- C8: an empty Array, and likewise an empty Object with braces: in compact mode the output
is `[]` at every level `m`; in pretty mode (prettyIndent p > 0) the writer still opens a
newline and closes at once, so the output at level 0 is `[`, a newline and `]`, and at a level
l >= 2 with p*(l-1) < 2^32 it is `[`, a newline, p*(l-1) spaces and `]`. -/
theorem write_empty_container (val : List Byte) (keys : List (List Byte))
    (values : List UniValue) (p l m : Nat) (hp : 0 < p) (hl : 2 ≤ l)
    (hm : p * (l - 1) < UINT_MOD) :
    (write (.mk .VARR val keys []) 0 m = some (lit "[]") ∧
     write (.mk .VARR val keys []) p 0 = some (lit "[\n]") ∧
     write (.mk .VARR val keys []) p l =
       some (lit "[\n" ++ List.replicate (p * (l - 1)) 32 ++ lit "]")) ∧
    (write (.mk .VOBJ val [] values) 0 m = some (lit "\x7b\x7d") ∧
     write (.mk .VOBJ val [] values) p 0 = some (lit "\x7b\n\x7d") ∧
     write (.mk .VOBJ val [] values) p l =
       some (lit "\x7b\n" ++ List.replicate (p * (l - 1)) 32 ++ lit "\x7d")) := by
  have hp0 : p ≠ 0 := by omega
  have hi := indent_level_pred p l hp hl hm
  refine ⟨⟨?_, ?_, ?_⟩, ?_, ?_, ?_⟩
  · rw [write_arr]
    simp [childTexts, arrayItems, newlineText, indentText, lit]
  · rw [write_arr]
    simp [childTexts, arrayItems, newlineText, indentText, lit, hp0, UINT_MOD]
  · rw [write_arr]
    simp only [childTexts, arrayItems, newlineText, indentText, Option.map_some', if_pos hp0,
      hi]
    simp [lit]
  · rw [write_obj]
    simp [entryTexts, objectItems, newlineText, indentText, lit]
  · rw [write_obj]
    simp [entryTexts, objectItems, newlineText, indentText, lit, hp0, UINT_MOD]
  · rw [write_obj]
    simp only [entryTexts, objectItems, newlineText, indentText, Option.map_some', if_pos hp0,
      hi]
    simp [lit]

/-- C8 at the indent 4 and the level 3: eight spaces before the closing bracket. -/
theorem write_empty_container_witness :
    0 < 4 ∧ 2 ≤ 3 ∧ 4 * (3 - 1) < UINT_MOD ∧
    write (mkArr []) 4 3 = some (lit "[\n        ]") ∧
    write (mkObj [] []) 4 3 = some (lit "\x7b\n        \x7d") := by
  have h := write_empty_container [] [] [] 4 3 0 (by decide) (by decide) (by decide)
  refine ⟨by decide, by decide, by decide, ?_, ?_⟩
  · rw [mkArr, h.1.2.2]; decide
  · rw [mkObj, h.2.2.2]; decide

/-- C9: `write` is total on finite value trees: for every tree in which every Object node
has as many values as keys, and every prettyIndent and indentLevel, `writeStream` (whose
recursion through `writeArray` and `writeObject` is each time on an element of `values`, a
strictly smaller tree) returns a string for every prior sink, and so does `write`; there is
no failure result. -/
theorem write_total (v : UniValue) (h : wellFormed v = true) (ss : Stream)
    (prettyIndent indentLevel : Nat) :
    (∃ t, write v prettyIndent indentLevel = some t ∧
      writeStream v ss prettyIndent indentLevel = some (ss ++ t)) ∧
    ∀ (i : Nat) (x : UniValue), v.values[i]? = some x → sizeOf x < sizeOf v := by
  constructor
  · obtain ⟨t, ht⟩ := write_some v h prettyIndent indentLevel
    exact ⟨t, ht, by rw [writeStream_eq_append, ht]; rfl⟩
  · intro i x hx
    exact UniValue.sizeOf_lt_of_mem (List.getElem?_mem hx)

/-- C9 at the object with the entry "k": [null, 7], written with a two-space indent. -/
theorem write_total_witness :
    wellFormed (mkObj [lit "k"] [mkArr [mkNull, mkNum (lit "7")]]) = true ∧
    (write (mkObj [lit "k"] [mkArr [mkNull, mkNum (lit "7")]]) 2 0).isSome = true ∧
    (writeStream (mkObj [lit "k"] [mkArr [mkNull, mkNum (lit "7")]]) (lit "x") 2 0).isSome
      = true := by
  obtain ⟨t, ht, hs⟩ :=
    (write_total (mkObj [lit "k"] [mkArr [mkNull, mkNum (lit "7")]]) (by decide)
      (lit "x") 2 0).1
  exact ⟨by decide, by rw [ht]; rfl, by rw [hs]; rfl⟩

/-- C10: if every Object node of the tree has as many values as keys, every indexed access
the writer makes is inside its vector: the run has a result (the writer of the model has none
exactly when an access is outside), in `writeObject` every index i below `keys.size()` is
below `values.size()` too, and in `writeArray` the loop bound is `values.size()` itself.
Conversely for an Object with more keys than values: the index `values.size()` is reached by
the loop bound, the access to `values` there is outside the vector, the loop does not notice
and the run has no result. -/
theorem writer_accesses_in_bounds (v w : UniValue) (ss : Stream)
    (prettyIndent indentLevel : Nat) (h : wellFormed v = true)
    (hobj : w.typ = .VOBJ) (hlt : w.values.length < w.keys.length) :
    (writeStream v ss prettyIndent indentLevel ≠ none ∧
     (v.typ = .VOBJ → ∀ i, i < v.keys.length →
        (v.keys[i]?).isSome = true ∧ (v.values[i]?).isSome = true) ∧
     (v.typ = .VARR → ∀ i, i < v.values.length → (v.values[i]?).isSome = true)) ∧
    (w.values[w.values.length]? = none ∧
     writeObjectLoop w ss prettyIndent indentLevel w.values.length w.keys.length = none ∧
     writeStream w ss prettyIndent indentLevel = none) := by
  refine ⟨⟨?_, ?_, ?_⟩, ?_, ?_, ?_⟩
  · obtain ⟨t, ht⟩ := write_some v h prettyIndent indentLevel
    rw [writeStream_eq_append, ht]
    simp
  · intro ht i hi
    cases v with
    | mk t val ks xs =>
      simp only [UniValue.typ] at ht
      subst ht
      simp only [wellFormed, Bool.and_eq_true, beq_iff_eq] at h
      simp only [UniValue.keys, UniValue.values] at hi ⊢
      rw [List.getElem?_eq_getElem hi, List.getElem?_eq_getElem (h.1 ▸ hi)]
      exact ⟨rfl, rfl⟩
  · intro _ i hi
    rw [List.getElem?_eq_getElem hi]
    rfl
  · exact List.getElem?_eq_none (Nat.le_refl _)
  · exact writeObjectLoop_none w ss prettyIndent indentLevel hlt
  · cases w with
    | mk t val ks xs =>
      simp only [UniValue.typ] at hobj
      subst hobj
      simp only [UniValue.keys, UniValue.values] at hlt
      rw [writeStream_eq_append, write_obj, entryTexts_none_of_lt _ _ _ _ hlt]
      rfl

/-- C10 at a well-formed array of an object, and at the object with the keys "a" and "b"
and the single value true. -/
theorem writer_accesses_in_bounds_witness :
    wellFormed (mkArr [mkObj [lit "a"] [mkNull]]) = true ∧
    (mkObj [lit "a", lit "b"] [mkBool (lit "1")]).typ = .VOBJ ∧
    (mkObj [lit "a", lit "b"] [mkBool (lit "1")]).values.length <
      (mkObj [lit "a", lit "b"] [mkBool (lit "1")]).keys.length ∧
    writeStream (mkArr [mkObj [lit "a"] [mkNull]]) [] 0 0 ≠ none ∧
    writeStream (mkObj [lit "a", lit "b"] [mkBool (lit "1")]) [] 0 0 = none :=
  have h := writer_accesses_in_bounds (mkArr [mkObj [lit "a"] [mkNull]])
    (mkObj [lit "a", lit "b"] [mkBool (lit "1")]) [] 0 0 (by decide) (by decide) (by decide)
  ⟨by decide, by decide, by decide, h.1.1, h.2.2.2⟩


/-! ## Auxiliary facts for the claims on levels, whitespace and calls -/

theorem whitespaceFree_append (a b : List Byte) :
    whitespaceFree (a ++ b) = true ↔ whitespaceFree a = true ∧ whitespaceFree b = true := by
  simp [whitespaceFree, List.all_append]

theorem whitespaceFree_flatten (ts : List (List Byte)) :
    (∀ t ∈ ts, whitespaceFree t = true) → whitespaceFree ts.flatten = true := by
  induction ts with
  | nil => intro _; rfl
  | cons t ts ih =>
    intro h
    rw [List.flatten_cons, whitespaceFree_append]
    exact ⟨h t (List.mem_cons_self _ _), ih (fun u hu => h u (List.mem_cons_of_mem _ hu))⟩

theorem whitespaceFree_intercalate (ts : List (List Byte)) :
    (∀ t ∈ ts, whitespaceFree t = true) →
      whitespaceFree (List.intercalate [44] ts) = true := by
  induction ts with
  | nil => intro _; rfl
  | cons t ts ih =>
    intro h
    cases ts with
    | nil =>
      rw [intercalate_single]
      exact h t (List.mem_cons_self _ _)
    | cons u us =>
      rw [intercalate_cons_cons, whitespaceFree_append, whitespaceFree_append]
      exact ⟨⟨h t (List.mem_cons_self _ _), by decide⟩,
        ih (fun w hw => h w (List.mem_cons_of_mem _ hw))⟩

theorem whitespaceFree_escapeByte
    (htab : ∀ e ∈ escapes, ∀ t, e = some t → whitespaceFree t = true)
    (b : Byte) (hb : isWhitespace b = false) : whitespaceFree (escapeByte b) = true := by
  unfold escapeByte
  have hlt : uint8_t b < escapes.length := by rw [escapes_length]; exact b.isLt
  rw [List.getD_eq_getElem?_getD, List.getElem?_eq_getElem hlt, Option.getD_some]
  cases he : escapes[uint8_t b] with
  | none => simp [whitespaceFree, hb]
  | some t => exact htab _ (List.getElem_mem hlt) t he

theorem whitespaceFree_escapeText
    (htab : ∀ e ∈ escapes, ∀ t, e = some t → whitespaceFree t = true)
    (s : List Byte) (hs : whitespaceFree s = true) : whitespaceFree (escapeText s) = true := by
  unfold escapeText List.flatMap
  apply whitespaceFree_flatten
  intro t ht
  obtain ⟨b, hb, rfl⟩ := List.mem_map.mp ht
  apply whitespaceFree_escapeByte htab
  simp only [whitespaceFree, List.all_eq_true] at hs
  simpa using hs b hb

theorem payloadsWhitespaceFreeAll_iff (xs : List UniValue) :
    payloadsWhitespaceFreeAll xs = true ↔ ∀ x ∈ xs, payloadsWhitespaceFree x = true := by
  induction xs with
  | nil => simp [payloadsWhitespaceFreeAll]
  | cons x xs ih => simp [payloadsWhitespaceFreeAll, ih]

theorem childTexts_forall (P : List Byte → Prop) (p l : Nat) :
    ∀ (xs : List UniValue) (ts : List (List Byte)), childTexts p l xs = some ts →
      (∀ x ∈ xs, ∀ t, write x p l = some t → P t) → ∀ t ∈ ts, P t := by
  intro xs
  induction xs with
  | nil => intro ts h _ t ht; simp [childTexts] at h; subst h; cases ht
  | cons x xs ih =>
    intro ts h hx t ht
    rw [childTexts] at h
    cases hw : write x p l with
    | none => simp [hw] at h
    | some u =>
      cases hc : childTexts p l xs with
      | none => simp [hw, hc] at h
      | some us =>
        simp [hw, hc] at h
        subst h
        rcases List.mem_cons.mp ht with rfl | ht
        · exact hx x (List.mem_cons_self _ _) _ hw
        · exact ih us hc (fun y hy => hx y (List.mem_cons_of_mem _ hy)) t ht

theorem entryTexts_forall (P Q : List Byte → Prop) (p l : Nat) :
    ∀ (ks : List (List Byte)) (xs : List UniValue) (es : List (List Byte × List Byte)),
      entryTexts p l ks xs = some es → (∀ k ∈ ks, Q k) →
      (∀ x ∈ xs, ∀ t, write x p l = some t → P t) → ∀ e ∈ es, Q e.1 ∧ P e.2 := by
  intro ks
  induction ks with
  | nil => intro xs es h _ _ e he; simp [entryTexts] at h; subst h; cases he
  | cons k ks ih =>
    intro xs es h hk hx e he
    cases xs with
    | nil => simp [entryTexts] at h
    | cons x xs =>
      rw [entryTexts] at h
      cases hw : write x p l with
      | none => simp [hw] at h
      | some u =>
        cases hc : entryTexts p l ks xs with
        | none => simp [hw, hc] at h
        | some us =>
          simp [hw, hc] at h
          subst h
          rcases List.mem_cons.mp he with rfl | he
          · exact ⟨hk k (List.mem_cons_self _ _), hx x (List.mem_cons_self _ _) _ hw⟩
          · exact ih xs us hc (fun j hj => hk j (List.mem_cons_of_mem _ hj))
              (fun y hy => hx y (List.mem_cons_of_mem _ hy)) e he

theorem compact_whitespaceFree_aux
    (htab : ∀ e ∈ escapes, ∀ t, e = some t → whitespaceFree t = true) (n : Nat) :
    ∀ (v : UniValue), sizeOf v = n → payloadsWhitespaceFree v = true →
      ∀ (l : Nat) (t : List Byte), write v 0 l = some t → whitespaceFree t = true := by
  induction n using Nat.strong_induction_on with
  | _ n ih =>
    intro v hn hv l t ht
    cases v with
    | mk ty val ks xs =>
      have hch : ∀ x ∈ xs, payloadsWhitespaceFree x = true →
          ∀ (l : Nat) (t : List Byte), write x 0 l = some t → whitespaceFree t = true := by
        intro x hx
        have hlt : sizeOf x < sizeOf (UniValue.mk ty val ks xs) :=
          UniValue.sizeOf_lt_of_mem (v := UniValue.mk ty val ks xs) hx
        exact ih (sizeOf x) (hn ▸ hlt) x rfl
      cases ty with
      | VNULL =>
        rw [write_null] at ht
        cases ht
        decide
      | VOBJ =>
        simp only [payloadsWhitespaceFree, Bool.and_eq_true, List.all_eq_true] at hv
        rw [write_obj_compact] at ht
        cases hc : entryTexts 0 (((if l = 0 then 1 else l) + 1) % UINT_MOD) ks xs with
        | none => rw [hc] at ht; cases ht
        | some es =>
          rw [hc] at ht
          simp only [Option.map_some', Option.some.injEq] at ht
          subst ht
          have hes := entryTexts_forall (fun t => whitespaceFree t = true)
            (fun k => whitespaceFree k = true) _ _ ks xs es hc hv.1
            (fun x hx t hw =>
              hch x hx ((payloadsWhitespaceFreeAll_iff xs).mp hv.2 x hx) _ t hw)
          rw [whitespaceFree_append, whitespaceFree_append]
          refine ⟨⟨by decide, whitespaceFree_intercalate _ ?_⟩, by decide⟩
          intro u hu
          obtain ⟨e, he, rfl⟩ := List.mem_map.mp hu
          obtain ⟨h1, h2⟩ := hes e he
          simp only [compactEntry, whitespaceFree_append]
          exact ⟨⟨⟨⟨by decide, whitespaceFree_escapeText htab _ h1⟩, by decide⟩, by decide⟩, h2⟩
      | VARR =>
        simp only [payloadsWhitespaceFree] at hv
        rw [write_arr_compact] at ht
        cases hc : childTexts 0 (((if l = 0 then 1 else l) + 1) % UINT_MOD) xs with
        | none => rw [hc] at ht; cases ht
        | some ts =>
          rw [hc] at ht
          simp only [Option.map_some', Option.some.injEq] at ht
          subst ht
          have hts := childTexts_forall (fun t => whitespaceFree t = true) _ _ xs ts hc
            (fun x hx t hw =>
              hch x hx ((payloadsWhitespaceFreeAll_iff xs).mp hv x hx) _ t hw)
          rw [whitespaceFree_append, whitespaceFree_append]
          exact ⟨⟨by decide, whitespaceFree_intercalate _ hts⟩, by decide⟩
      | VSTR =>
        simp only [payloadsWhitespaceFree] at hv
        rw [write_str] at ht
        cases ht
        rw [whitespaceFree_append, whitespaceFree_append]
        exact ⟨⟨by decide, whitespaceFree_escapeText htab _ hv⟩, by decide⟩
      | VNUM =>
        simp only [payloadsWhitespaceFree] at hv
        rw [write_num] at ht
        cases ht
        exact hv
      | VBOOL =>
        rw [write_bool] at ht
        cases ht
        split <;> decide

set_option maxRecDepth 100000 in
theorem escapes_all_whitespaceFree :
    escapes.all (fun e => e.all whitespaceFree) = true := by
  decide

theorem escapes_whitespaceFree :
    ∀ e ∈ escapes, ∀ r, e = some r → whitespaceFree r = true := by
  intro e he r hr
  have h := List.all_eq_true.mp escapes_all_whitespaceFree e he
  rw [hr] at h
  simpa using h

theorem Call.Step.step_level_inv {c d : Call} (h : Call.Step c d) (hc : c.level < UINT_MOD) :
    d.level < UINT_MOD ∧ ∀ l, d.containerLevel = some l → 1 ≤ l := by
  have hM : 1 < UINT_MOD := by decide
  cases h with
  | toObject v l h =>
    simp only [Call.level, Call.containerLevel, Option.some.injEq] at hc ⊢
    refine ⟨by split <;> omega, ?_⟩
    intro m hm
    subst hm
    split <;> omega
  | toArray v l h =>
    simp only [Call.level, Call.containerLevel, Option.some.injEq] at hc ⊢
    refine ⟨by split <;> omega, ?_⟩
    intro m hm
    subst hm
    split <;> omega
  | arrayElem v x l i hi hx =>
    simp only [Call.level, Call.containerLevel]
    exact ⟨Nat.mod_lt _ (by omega), fun _ h => by cases h⟩
  | objectElem v x l i hi hx =>
    simp only [Call.level, Call.containerLevel]
    exact ⟨Nat.mod_lt _ (by omega), fun _ h => by cases h⟩

theorem Call.Reaches.reach_level_inv {c d : Call} (h : Call.Reaches c d)
    (hc : c.level < UINT_MOD ∧ ∀ l, c.containerLevel = some l → 1 ≤ l) :
    d.level < UINT_MOD ∧ ∀ l, d.containerLevel = some l → 1 ≤ l := by
  induction h with
  | refl => exact hc
  | tail _ hstep ih => exact Call.Step.step_level_inv hstep ih.1

theorem Call.containerLevel_eq_level {c : Call} {l : Nat} (h : c.containerLevel = some l) :
    c.level = l := by
  cases c <;> simp_all [Call.containerLevel, Call.level]

theorem arrayItems_eq_itemLines (p l n : Nat) (hp : p ≠ 0) :
    ∀ (ts : List (List Byte)) (i : Nat),
      arrayItems p l n i ts = itemLines (p * l % UINT_MOD) n i ts := by
  intro ts
  induction ts with
  | nil => intro i; rfl
  | cons t ts ih =>
    intro i
    rw [arrayItems, itemLines, ih (i + 1)]
    simp [indentText, newlineText, hp]

theorem objectItems_eq_itemLines (p l n : Nat) (hp : p ≠ 0) :
    ∀ (es : List (List Byte × List Byte)) (i : Nat),
      objectItems p l n i es =
        itemLines (p * l % UINT_MOD) n i (es.map (fun e => prettyEntry e.1 e.2)) := by
  intro es
  induction es with
  | nil => intro i; rfl
  | cons e es ih =>
    intro i
    obtain ⟨k, t⟩ := e
    rw [objectItems, List.map_cons, itemLines, ih (i + 1)]
    simp [indentText, newlineText, spaceText, prettyEntry, hp]

/-- The text of the array of the array of the number 1, with a two-space indent at the
level 0. -/
theorem write_nested_root :
    write (mkArr [mkArr [mkNum (lit "1")]]) 2 0 = some (lit "[\n  [\n    1\n  ]\n]") := by
  rw [mkArr, write_arr]
  simp only [childTexts, mkArr, write_arr, mkNum, write_num, Option.map_some']
  decide

theorem effective_pred (l : Nat) (hl : l < UINT_MOD) :
    (effective l + UINT_MOD - 1) % UINT_MOD = effective l - 1 := by
  have h1 : 1 ≤ effective l := by unfold effective; split <;> omega
  have h2 : effective l < UINT_MOD := by
    have hM : 1 < UINT_MOD := by decide
    unfold effective; split <;> omega
  have h3 : effective l + UINT_MOD - 1 = (effective l - 1) + UINT_MOD := by omega
  rw [h3, Nat.add_mod_right, Nat.mod_eq_of_lt (by omega)]

/-- The text of the array of a null written with the indent 2 at the level 2^31 + 1, where
the products of the indent and the levels pass 2^32. -/
theorem write_wrapped_indent :
    write (mkArr [mkNull]) 2 (2 ^ 31 + 1) = some (lit "[\n  null\n]") := by
  rw [mkArr, write_arr]
  simp only [childTexts, mkNull, write_null, Option.map_some']
  decide

/-! ## The claims on the sink, whitespace and indent levels -/

/-- C11: `writeStream` is append-only on its sink: for every value, prettyIndent, indentLevel
and prior sink content `s`, the sink content after `writeStream` is `s` followed by exactly
`write(value, prettyIndent, indentLevel)` (and no result exactly when `write` has none), so
the first bytes of the sink are still `s`; and `write` is `writeStream` run on an empty
sink. -/
theorem writeStream_append_only (v : UniValue) (s : Stream) (prettyIndent indentLevel : Nat) :
    writeStream v s prettyIndent indentLevel =
      (write v prettyIndent indentLevel).map (fun t => s ++ t) ∧
    (writeStream v s prettyIndent indentLevel).map (fun out => out.take s.length) =
      (write v prettyIndent indentLevel).map (fun _ => s) ∧
    write v prettyIndent indentLevel = writeStream v [] prettyIndent indentLevel := by
  refine ⟨writeStream_eq_append v s _ _, ?_, rfl⟩
  rw [writeStream_eq_append]
  cases write v prettyIndent indentLevel <;> simp

/-- C12: compact mode adds no whitespace: for every tree and every indentLevel, if no Number
payload, no String payload and no Object key of the tree has a space, tab, carriage-return
or newline byte, and no replacement text of the escape table has one, then
`write(tree, 0, indentLevel)` has no such byte at all. -/
theorem compact_no_whitespace (v : UniValue) (indentLevel : Nat) (t : List Byte)
    (htab : ∀ e ∈ escapes, ∀ r, e = some r → whitespaceFree r = true)
    (hv : payloadsWhitespaceFree v = true) (ht : write v 0 indentLevel = some t) :
    ∀ b ∈ t, b.val ≠ 32 ∧ b.val ≠ 9 ∧ b.val ≠ 10 ∧ b.val ≠ 13 := by
  have h := compact_whitespaceFree_aux htab (sizeOf v) v rfl hv indentLevel t ht
  simp only [whitespaceFree, List.all_eq_true] at h
  intro b hb
  have hb2 := h b hb
  simp only [isWhitespace, Bool.not_eq_true', Bool.or_eq_false_iff, beq_eq_false_iff_ne] at hb2
  exact ⟨hb2.1.1.1, hb2.1.1.2, hb2.1.2, hb2.2⟩

set_option maxRecDepth 100000 in
/-- C12 at the object with the entry "k": [1, "ab"], whose compact text has no whitespace
byte. -/
theorem compact_no_whitespace_witness :
    payloadsWhitespaceFree (mkObj [lit "k"] [mkArr [mkNum (lit "1"), mkStr (lit "ab")]]) = true ∧
    write (mkObj [lit "k"] [mkArr [mkNum (lit "1"), mkStr (lit "ab")]]) 0 0 =
      some (lit "\x7b\"k\":[1,\"ab\"]\x7d") ∧
    ∀ b ∈ lit "\x7b\"k\":[1,\"ab\"]\x7d", b.val ≠ 32 ∧ b.val ≠ 9 ∧ b.val ≠ 10 ∧ b.val ≠ 13 := by
  have ht : write (mkObj [lit "k"] [mkArr [mkNum (lit "1"), mkStr (lit "ab")]]) 0 0 =
      some (lit "\x7b\"k\":[1,\"ab\"]\x7d") := by
    rw [mkObj, write_obj_compact]
    simp only [entryTexts, mkArr, write_arr_compact, childTexts, mkNum, mkStr, write_num,
      write_str, Option.map_some']
    decide
  exact ⟨by decide, ht,
    compact_no_whitespace _ 0 _ escapes_whitespaceFree (by decide) ht⟩

/-- C14: the closing-bracket indent computation never underflows: every call of `writeArray`
or `writeObject` reachable from a call of `writeStream` with an unsigned 32-bit indentLevel
receives an indentLevel `l` with 1 <= l < 2^32, so `indentLevel - 1` in `unsigned int` is
`l - 1`, without wrapping; this holds at the level 2^32 - 1 too, where the level
`indentLevel + 1` of a child wraps to 0 and the container call of the child receives 1; and a
container written at the level 0 receives the level 1, so that its closing bracket is
preceded by zero spaces: it follows the newline of the last element at once. -/
theorem closing_indent_no_underflow (v0 : UniValue) (l0 : Nat) (c : Call) (l : Nat)
    (val : List Byte) (keys : List (List Byte)) (xs : List UniValue) (p : Nat)
    (hl0 : l0 < UINT_MOD) (hr : Call.Reaches (.stream v0 l0) c)
    (hc : c.containerLevel = some l) :
    (1 ≤ l ∧ l < UINT_MOD ∧ (l + UINT_MOD - 1) % UINT_MOD = l - 1) ∧
    ((UINT_MOD - 1 + 1) % UINT_MOD = 0 ∧ effective 0 = 1) ∧
    indentText p ((effective 0 + UINT_MOD - 1) % UINT_MOD) = [] ∧
    write (.mk .VARR val keys xs) p 0 =
      (childTexts p 2 xs).map
        (fun ts => [91] ++ newlineText p ++ arrayItems p 1 xs.length 0 ts ++ [93]) ∧
    write (.mk .VOBJ val keys xs) p 0 =
      (entryTexts p 2 keys xs).map
        (fun es => [123] ++ newlineText p ++ objectItems p 1 keys.length 0 es ++ [125]) := by
  have hinv := Call.Reaches.reach_level_inv hr ⟨hl0, fun _ h => by cases h⟩
  have h1 : 1 ≤ l := hinv.2 l hc
  have h2 : l < UINT_MOD := Call.containerLevel_eq_level hc ▸ hinv.1
  have h0 : (effective 0 + UINT_MOD - 1) % UINT_MOD = 0 := by decide
  have hi : indentText p 0 = [] := by simp [indentText]
  refine ⟨⟨h1, h2, ?_⟩, ⟨by decide, rfl⟩, by rw [h0, hi], ?_, ?_⟩
  · have h3 : l + UINT_MOD - 1 = (l - 1) + UINT_MOD := by omega
    rw [h3, Nat.add_mod_right, Nat.mod_eq_of_lt (by omega)]
  · rw [write_arr]
    show Option.map _ (childTexts p ((effective 0 + 1) % UINT_MOD) xs) = _
    have h2 : (effective 0 + 1) % UINT_MOD = 2 := by decide
    rw [h2]
    cases childTexts p 2 xs with
    | none => rfl
    | some ts =>
      simp only [Option.map_some', Option.some.injEq]
      show [91] ++ newlineText p ++ arrayItems p (effective 0) xs.length 0 ts ++
        indentText p ((effective 0 + UINT_MOD - 1) % UINT_MOD) ++ [93] = _
      rw [h0, hi]
      simp [effective]
  · rw [write_obj]
    show Option.map _ (entryTexts p ((effective 0 + 1) % UINT_MOD) keys xs) = _
    have h2 : (effective 0 + 1) % UINT_MOD = 2 := by decide
    rw [h2]
    cases entryTexts p 2 keys xs with
    | none => rfl
    | some es =>
      simp only [Option.map_some', Option.some.injEq]
      show [123] ++ newlineText p ++ objectItems p (effective 0) keys.length 0 es ++
        indentText p ((effective 0 + UINT_MOD - 1) % UINT_MOD) ++ [125] = _
      rw [h0, hi]
      simp [effective]

/-- C14 at an array in an array written at the level 2^32 - 1: the inner array is written
at the wrapped level 0 and its `writeArray` call receives the level 1. -/
theorem closing_indent_no_underflow_witness :
    2 ^ 32 - 1 < UINT_MOD ∧
    Call.Reaches (.stream (mkArr [mkArr []]) (2 ^ 32 - 1)) (.array (mkArr []) 1) ∧
    (Call.array (mkArr []) 1).containerLevel = some 1 ∧
    (1 ≤ 1 ∧ 1 < UINT_MOD ∧ (1 + UINT_MOD - 1) % UINT_MOD = 1 - 1) := by
  have h1 : Call.Step (.stream (mkArr [mkArr []]) (2 ^ 32 - 1))
      (.array (mkArr [mkArr []]) (2 ^ 32 - 1)) :=
    Call.Step.toArray (mkArr [mkArr []]) (2 ^ 32 - 1) rfl
  have h2 : Call.Step (.array (mkArr [mkArr []]) (2 ^ 32 - 1)) (.stream (mkArr []) 0) :=
    Call.Step.arrayElem (mkArr [mkArr []]) (mkArr []) (2 ^ 32 - 1) 0 (by decide) rfl
  have h3 : Call.Step (.stream (mkArr []) 0) (.array (mkArr []) 1) :=
    Call.Step.toArray (mkArr []) 0 rfl
  have hr : Call.Reaches (.stream (mkArr [mkArr []]) (2 ^ 32 - 1)) (.array (mkArr []) 1) :=
    ((Relation.ReflTransGen.single h1).tail h2).tail h3
  exact ⟨by decide, hr, rfl,
    (closing_indent_no_underflow (mkArr [mkArr []]) (2 ^ 32 - 1) _ 1 [] [] [] 2 (by decide) hr
      rfl).1⟩

/-- C15, as stated, fails at the array of the array of the number 1 written with a two-space
indent at the level 0: were the inner array emitted at the level 0 + 1, the text would have
the number after two spaces and the inner closing bracket after none, while the writer puts
four spaces and two spaces there, the inner array being emitted at the level 2. -/
theorem child_level_counterexample :
    write (mkArr [mkArr [mkNum (lit "1")]]) 2 0 = some (lit "[\n  [\n    1\n  ]\n]") ∧
    (childTexts 2 ((0 + 1) % UINT_MOD) [mkArr [mkNum (lit "1")]]).map
        (fun ts => [91] ++ newlineText 2 ++ arrayItems 2 (effective 0) 1 0 ts ++
          indentText 2 ((effective 0 + UINT_MOD - 1) % UINT_MOD) ++ [93]) =
      some (lit "[\n  [\n  1\n]\n]") ∧
    write (mkArr [mkArr [mkNum (lit "1")]]) 2 0 ≠
      (childTexts 2 ((0 + 1) % UINT_MOD) [mkArr [mkNum (lit "1")]]).map
        (fun ts => [91] ++ newlineText 2 ++ arrayItems 2 (effective 0) 1 0 ts ++
          indentText 2 ((effective 0 + UINT_MOD - 1) % UINT_MOD) ++ [93]) := by
  have h2 : (childTexts 2 ((0 + 1) % UINT_MOD) [mkArr [mkNum (lit "1")]]).map
        (fun ts => [91] ++ newlineText 2 ++ arrayItems 2 (effective 0) 1 0 ts ++
          indentText 2 ((effective 0 + UINT_MOD - 1) % UINT_MOD) ++ [93]) =
      some (lit "[\n  [\n  1\n]\n]") := by
    simp only [childTexts, mkArr, write_arr, mkNum, write_num, Option.map_some']
    decide
  refine ⟨write_nested_root, h2, ?_⟩
  rw [h2, write_nested_root]
  decide

/-- C15, amended: the floor substitution is passed on. When `writeStream` emits a container
at the caller's indentLevel `l`, the container emitter receives the effective level and each
element (or entry value) is emitted by `writeStream` at the level effective(l) + 1, taken in
`unsigned int`; so for a container written at the level 0 the elements are emitted at the
level 2, as for one written at the level 1. -/
theorem child_level_effective (val : List Byte) (keys ks : List (List Byte))
    (xs : List UniValue) (p l : Nat) (ss : Stream) :
    (writeStream (.mk .VARR val keys xs) ss p l =
        writeArray (.mk .VARR val keys xs) ss p (effective l) ∧
     writeStream (.mk .VOBJ val ks xs) ss p l =
        writeObject (.mk .VOBJ val ks xs) ss p (effective l)) ∧
    write (.mk .VARR val keys xs) p l =
      (childTexts p ((effective l + 1) % UINT_MOD) xs).map
        (fun ts => [91] ++ newlineText p ++ arrayItems p (effective l) xs.length 0 ts ++
          indentText p ((effective l + UINT_MOD - 1) % UINT_MOD) ++ [93]) ∧
    write (.mk .VOBJ val ks xs) p l =
      (entryTexts p ((effective l + 1) % UINT_MOD) ks xs).map
        (fun es => [123] ++ newlineText p ++ objectItems p (effective l) ks.length 0 es ++
          indentText p ((effective l + UINT_MOD - 1) % UINT_MOD) ++ [125]) ∧
    (effective 0 + 1) % UINT_MOD = 2 ∧ (effective 1 + 1) % UINT_MOD = 2 := by
  refine ⟨⟨?_, ?_⟩, write_arr _ _ _ _ _, write_obj _ _ _ _ _, by decide, by decide⟩
  · rw [writeStream]; rfl
  · rw [writeStream]; rfl

/-- C16, as stated, fails at the array of a null written with prettyIndent 2 at the level
2^31 + 1: the exact products are 2^32 + 2 spaces before the element and 2^32 spaces before
the closing bracket, while the writer, which multiplies in `unsigned int`, puts two spaces
before the element and none before the closing bracket. -/
theorem indent_width_counterexample :
    write (mkArr [mkNull]) 2 (2 ^ 31 + 1) = some (lit "[\n  null\n]") ∧
    2 * effective (2 ^ 31 + 1) = 2 ^ 32 + 2 ∧ 2 * (effective (2 ^ 31 + 1) - 1) = 2 ^ 32 ∧
    write (mkArr [mkNull]) 2 (2 ^ 31 + 1) ≠
      some ([91, 10] ++ itemLines (2 * effective (2 ^ 31 + 1)) 1 0 [lit "null"] ++
        List.replicate (2 * (effective (2 ^ 31 + 1) - 1)) 32 ++ [93]) := by
  refine ⟨write_wrapped_indent, by decide, by decide, ?_⟩
  rw [write_wrapped_indent]
  intro h
  have hlen := congrArg (fun o => o.map List.length) h
  have h1 : 2 * (effective (2 ^ 31 + 1) - 1) = 4294967296 := by decide
  have h2 : (lit "[\n  null\n]").length = 10 := by decide
  simp only [Option.map_some', Option.some.injEq, List.length_append, List.length_replicate,
    h1, h2] at hlen
  omega

/-- C16, amended: for every container written by `writeStream` with a prettyIndent p > 0 at
an unsigned 32-bit indentLevel `l`, with effective(l) = 1 if l = 0 and l otherwise, each
element (or entry) is preceded by exactly (p * effective(l)) mod 2^32 spaces and the closing
bracket by exactly (p * (effective(l) - 1)) mod 2^32 spaces, the products being taken in
`unsigned int`; when p * effective(l) is below 2^32 these are the exact products and the
closing bracket is indented exactly `p` fewer spaces than the direct children. -/
theorem pretty_indent_widths (val : List Byte) (keys ks : List (List Byte))
    (xs : List UniValue) (p l : Nat) (hp : 0 < p) (hl : l < UINT_MOD)
    (hk : ks.length = xs.length) :
    write (.mk .VARR val keys xs) p l =
      (childTexts p ((effective l + 1) % UINT_MOD) xs).map
        (fun ts => [91, 10] ++ itemLines (p * effective l % UINT_MOD) xs.length 0 ts ++
          List.replicate (p * (effective l - 1) % UINT_MOD) 32 ++ [93]) ∧
    write (.mk .VOBJ val ks xs) p l =
      (childTexts p ((effective l + 1) % UINT_MOD) xs).map
        (fun ts => [123, 10] ++
          itemLines (p * effective l % UINT_MOD) ks.length 0 (List.zipWith prettyEntry ks ts) ++
          List.replicate (p * (effective l - 1) % UINT_MOD) 32 ++ [125]) ∧
    (p * effective l < UINT_MOD →
      p * effective l % UINT_MOD = p * effective l ∧
      p * (effective l - 1) % UINT_MOD = p * (effective l - 1) ∧
      p * (effective l - 1) + p = p * effective l) := by
  have hp0 : p ≠ 0 := by omega
  have hpred := effective_pred l hl
  have h1 : 1 ≤ effective l := by unfold effective; split <;> omega
  refine ⟨?_, ?_, ?_⟩
  · rw [write_arr]
    show Option.map _ (childTexts p ((effective l + 1) % UINT_MOD) xs) = _
    cases childTexts p ((effective l + 1) % UINT_MOD) xs with
    | none => rfl
    | some ts =>
      simp only [Option.map_some', Option.some.injEq]
      show [91] ++ newlineText p ++ arrayItems p (effective l) xs.length 0 ts ++
        indentText p ((effective l + UINT_MOD - 1) % UINT_MOD) ++ [93] = _
      rw [hpred, arrayItems_eq_itemLines p _ _ hp0]
      simp [newlineText, indentText, hp0]
  · rw [write_obj]
    show Option.map _ (entryTexts p ((effective l + 1) % UINT_MOD) ks xs) = _
    rw [entryTexts_eq_zip _ _ _ _ hk]
    cases childTexts p ((effective l + 1) % UINT_MOD) xs with
    | none => rfl
    | some ts =>
      simp only [Option.map_some', Option.some.injEq]
      show [123] ++ newlineText p ++ objectItems p (effective l) ks.length 0 (List.zip ks ts) ++
        indentText p ((effective l + UINT_MOD - 1) % UINT_MOD) ++ [125] = _
      rw [hpred, objectItems_eq_itemLines p _ _ hp0, map_zip_entry]
      simp [newlineText, indentText, hp0]
  · intro hlt
    have hle : p * (effective l - 1) ≤ p * effective l := Nat.mul_le_mul_left p (by omega)
    refine ⟨Nat.mod_eq_of_lt hlt, Nat.mod_eq_of_lt (by omega), ?_⟩
    have : effective l = (effective l - 1) + 1 := by omega
    conv_rhs => rw [this, Nat.mul_add, Nat.mul_one]

/-- C16 at the array of a null and the object with the entry "a": null, written with the
indent 2 at the level 2^31 + 1: two spaces before the element, none before the closing
bracket. -/
theorem pretty_indent_widths_witness :
    0 < 2 ∧ 2 ^ 31 + 1 < UINT_MOD ∧ [lit "a"].length = [mkNull].length ∧
    write (mkArr [mkNull]) 2 (2 ^ 31 + 1) =
      (childTexts 2 ((effective (2 ^ 31 + 1) + 1) % UINT_MOD) [mkNull]).map
        (fun ts => [91, 10] ++
          itemLines (2 * effective (2 ^ 31 + 1) % UINT_MOD) [mkNull].length 0 ts ++
          List.replicate (2 * (effective (2 ^ 31 + 1) - 1) % UINT_MOD) 32 ++ [93]) ∧
    2 * effective (2 ^ 31 + 1) % UINT_MOD = 2 ∧
    2 * (effective (2 ^ 31 + 1) - 1) % UINT_MOD = 0 :=
  ⟨by decide, by decide, rfl,
    (pretty_indent_widths [] [] [lit "a"] [mkNull] 2 (2 ^ 31 + 1) (by decide) (by decide) rfl).1,
    by decide, by decide⟩

/-- C17: the indent levels 0 and 1 are indistinguishable, `write(v, p, 0) = write(v, p, 1)`
for every tree `v` and prettyIndent `p`; and in compact mode the level is irrelevant,
`write(v, 0, l) = write(v, 0, m)` for all levels `l` and `m`. -/
theorem write_level_irrelevant (v : UniValue) (p l m : Nat) :
    write v p 0 = write v p 1 ∧ write v 0 l = write v 0 m := by
  refine ⟨?_, write_compact_level v l m⟩
  unfold write
  rw [writeStream, writeStream]
  simp

end UniValueWrite

namespace Uint256
namespace base_blob

/-! ## The blobs as little-endian integers -/

theorem byte_lt {BITS : Nat} (self : base_blob BITS) (i : Nat) : self.byte i < 256 :=
  (self.data.getD i 0).isLt

theorem valueBelow_succ {BITS : Nat} (self : base_blob BITS) (n : Nat) :
    self.valueBelow (n + 1) = self.valueBelow n + self.byte n * 256 ^ n := by
  unfold valueBelow
  rw [Finset.sum_range_succ]

theorem valueBelow_lt {BITS : Nat} (self : base_blob BITS) (n : Nat) :
    self.valueBelow n < 256 ^ n := by
  induction n with
  | zero => simp [valueBelow]
  | succ n ih =>
    rw [valueBelow_succ, pow_succ]
    have hb := self.byte_lt n
    nlinarith

theorem int_sign_cases (z : Int) :
    (z < 0 ∧ z.sign = -1) ∨ (z = 0 ∧ z.sign = 0) ∨ (0 < z ∧ z.sign = 1) := by
  rcases lt_trichotomy z 0 with h | h | h
  · exact Or.inl ⟨h, Int.sign_eq_neg_one_of_neg h⟩
  · exact Or.inr (Or.inl ⟨h, by rw [h]; rfl⟩)
  · exact Or.inr (Or.inr ⟨h, Int.sign_eq_one_of_pos h⟩)

theorem top_digit_lt (P A B x y : Nat) (hB : B < P) (h : y < x) : B + y * P < A + x * P := by
  have h1 : (y + 1) * P ≤ x * P := Nat.mul_le_mul_right P h
  have h2 : (y + 1) * P = y * P + P := by ring
  omega

theorem CompareLoop_eq_sign {BITS : Nat} (a b : base_blob BITS) :
    ∀ (n i : Nat), i + n = WIDTH BITS →
      CompareLoop a b n i = Int.sign ((a.valueBelow n : Int) - (b.valueBelow n : Int)) := by
  intro n
  induction n with
  | zero => intro i _; simp [CompareLoop, valueBelow]
  | succ n ih =>
    intro i hi
    have hidx : WIDTH BITS - 1 - i = n := by omega
    rw [CompareLoop, hidx, valueBelow_succ, valueBelow_succ]
    have hA := a.valueBelow_lt n
    have hB := b.valueBelow_lt n
    rcases Nat.lt_trichotomy (b.byte n) (a.byte n) with h | h | h
    · rw [if_pos h]
      have := top_digit_lt (256 ^ n) (a.valueBelow n) (b.valueBelow n) _ _ hB h
      symm
      apply Int.sign_eq_one_of_pos
      omega
    · rw [if_neg (by omega), if_neg (by omega), ih (i + 1) (by omega), h]
      congr 1
      push_cast
      ring
    · rw [if_neg (by omega), if_pos h]
      have := top_digit_lt (256 ^ n) (b.valueBelow n) (a.valueBelow n) _ _ hA h
      symm
      apply Int.sign_eq_neg_one_of_neg
      omega

/-- `Compare` is the sign of the difference of the little-endian values. -/
theorem Compare_eq_sign {BITS : Nat} (a b : base_blob BITS) :
    a.Compare b = Int.sign ((a.N : Int) - (b.N : Int)) :=
  CompareLoop_eq_sign a b (WIDTH BITS) 0 (by omega)

theorem valueBelow_inj {BITS : Nat} (a b : base_blob BITS) :
    ∀ (n : Nat), a.valueBelow n = b.valueBelow n → ∀ j, j < n → a.byte j = b.byte j := by
  intro n
  induction n with
  | zero => intro _ j hj; omega
  | succ n ih =>
    intro h j hj
    rw [valueBelow_succ, valueBelow_succ] at h
    have hA := a.valueBelow_lt n
    have hB := b.valueBelow_lt n
    have hbyte : a.byte n = b.byte n := by
      rcases Nat.lt_trichotomy (b.byte n) (a.byte n) with h1 | h1 | h1
      · have := top_digit_lt (256 ^ n) (a.valueBelow n) (b.valueBelow n) _ _ hB h1
        omega
      · exact h1.symm
      · have := top_digit_lt (256 ^ n) (b.valueBelow n) (a.valueBelow n) _ _ hA h1
        omega
    rw [hbyte] at h
    rcases Nat.lt_or_ge j n with hlt | hge
    · exact ih (by omega) j hlt
    · have : j = n := by omega
      rw [this, hbyte]

theorem ext_byte {BITS : Nat} (a b : base_blob BITS)
    (h : ∀ j, j < WIDTH BITS → a.byte j = b.byte j) : a = b := by
  obtain ⟨da, ha⟩ := a
  obtain ⟨db, hb⟩ := b
  have hd : da = db := by
    apply List.ext_getElem (by rw [ha, hb])
    intro j h1 h2
    have hj := h j (by rw [← ha]; exact h1)
    simp only [byte, List.getD_eq_getElem?_getD, List.getElem?_eq_getElem h1,
      List.getElem?_eq_getElem h2, Option.getD_some] at hj
    exact Fin.ext hj
  subst hd
  rfl

theorem N_eq_iff {BITS : Nat} (a b : base_blob BITS) : a.N = b.N ↔ a = b := by
  constructor
  · intro h
    exact ext_byte a b (valueBelow_inj a b _ h)
  · intro h; rw [h]

theorem Compare_eq_zero_iff {BITS : Nat} (a b : base_blob BITS) :
    a.Compare b = 0 ↔ a = b := by
  rw [Compare_eq_sign, Int.sign_eq_zero_iff_zero, ← N_eq_iff]
  omega

theorem Compare_neg_iff {BITS : Nat} (a b : base_blob BITS) :
    a.Compare b < 0 ↔ a.N < b.N := by
  rw [Compare_eq_sign]
  rcases int_sign_cases ((a.N : Int) - (b.N : Int)) with ⟨h, hs⟩ | ⟨h, hs⟩ | ⟨h, hs⟩ <;>
    rw [hs] <;> omega

theorem Compare_pos_iff {BITS : Nat} (a b : base_blob BITS) :
    0 < a.Compare b ↔ b.N < a.N := by
  rw [Compare_eq_sign]
  rcases int_sign_cases ((a.N : Int) - (b.N : Int)) with ⟨h, hs⟩ | ⟨h, hs⟩ | ⟨h, hs⟩ <;>
    rw [hs] <;> omega

theorem lt_iff {BITS : Nat} (a b : base_blob BITS) : a.lt b = true ↔ a.N < b.N := by
  simp only [lt, decide_eq_true_eq]
  exact Compare_neg_iff a b

theorem eq_iff {BITS : Nat} (a b : base_blob BITS) : a.eq b = true ↔ a.N = b.N := by
  simp only [eq, decide_eq_true_eq]
  rw [Compare_eq_zero_iff, N_eq_iff]

theorem lt_false_iff {BITS : Nat} (a b : base_blob BITS) : a.lt b = false ↔ b.N ≤ a.N := by
  rw [← Bool.not_eq_true, lt_iff]
  omega

theorem eq_false_iff {BITS : Nat} (a b : base_blob BITS) : a.eq b = false ↔ a.N ≠ b.N := by
  rw [← Bool.not_eq_true, eq_iff]

theorem byte_zero (BITS i : Nat) : (zero BITS).byte i = 0 := by
  simp only [byte, zero, List.getD_eq_getElem?_getD]
  rcases Nat.lt_or_ge i (WIDTH BITS) with h | h
  · rw [List.getElem?_eq_getElem (by simpa using h)]
    simp
  · rw [List.getElem?_eq_none (by simpa using h)]
    rfl

theorem eq_iff_bytes {BITS : Nat} (a b : base_blob BITS) :
    a = b ↔ ∀ i, i < WIDTH BITS → a.byte i = b.byte i :=
  ⟨fun h _ _ => by rw [h], ext_byte a b⟩

theorem IsNullLoop_iff {BITS : Nat} (x : base_blob BITS) :
    ∀ (n i : Nat), IsNullLoop x n i = true ↔ ∀ j, i ≤ j → j < i + n → x.byte j = 0 := by
  intro n
  induction n with
  | zero => intro i; simp only [IsNullLoop, true_iff]; intro j h1 h2; omega
  | succ n ih =>
    intro i
    rw [IsNullLoop]
    by_cases h : x.byte i = 0
    · rw [if_neg (by simpa using h), ih (i + 1)]
      constructor
      · intro hall j h1 h2
        rcases Nat.eq_or_lt_of_le h1 with h3 | h3
        · rw [← h3]; exact h
        · exact hall j h3 (by omega)
      · intro hall j h1 h2
        exact hall j (by omega) (by omega)
    · rw [if_pos h]
      simp only [Bool.false_eq_true, false_iff]
      intro hall
      exact h (hall i (Nat.le_refl _) (by omega))

theorem readAt_inside {BITS : Nat} (x : base_blob BITS) (i : Nat) (h : i < WIDTH BITS) :
    x.readAt (i : Int) = some (x.byte i) := by
  have hl : i < x.data.length := by rw [x.size_eq]; exact h
  simp only [readAt, Int.toNat_ofNat, byte, List.getD_eq_getElem?_getD]
  rw [if_pos (Int.ofNat_nonneg i), List.getElem?_eq_getElem hl]
  rfl

theorem readAt_outside {BITS : Nat} (x : base_blob BITS) (i : Nat) (h : WIDTH BITS ≤ i) :
    x.readAt (i : Int) = none := by
  have hl : x.data.length ≤ i := by rw [x.size_eq]; exact h
  simp only [readAt, Int.toNat_ofNat]
  rw [if_pos (Int.ofNat_nonneg i), List.getElem?_eq_none hl]
  rfl

theorem or_shl64 (acc b s : Nat) (hacc : acc < 2 ^ s) (hb : b < 256) (hs : s + 8 ≤ 64) :
    acc ||| shl64 b s = acc + b * 2 ^ s := by
  have h1 : b * 2 ^ s < UINT64_MOD := by
    have h2 : (2 : Nat) ^ (s + 8) ≤ 2 ^ 64 := Nat.pow_le_pow_right (by decide) hs
    have h3 : b * 2 ^ s < 256 * 2 ^ s := Nat.mul_lt_mul_of_pos_right hb (pow_pos (by decide) s)
    have h4 : (2 : Nat) ^ (s + 8) = 256 * 2 ^ s := by rw [pow_add]; ring
    unfold UINT64_MOD
    omega
  rw [shl64, Nat.shiftLeft_eq, Nat.mod_eq_of_lt h1, Nat.or_comm, Nat.mul_comm b,
    ← Nat.mul_add_lt_is_or hacc, Nat.add_comm]

theorem word_expand {BITS : Nat} (x : base_blob BITS) (q : Nat) :
    x.word q = x.byte (8 * q) + x.byte (8 * q + 1) * 2 ^ 8 + x.byte (8 * q + 2) * 2 ^ 16 +
      x.byte (8 * q + 3) * 2 ^ 24 + x.byte (8 * q + 4) * 2 ^ 32 + x.byte (8 * q + 5) * 2 ^ 40 +
      x.byte (8 * q + 6) * 2 ^ 48 + x.byte (8 * q + 7) * 2 ^ 56 := by
  simp only [word, Finset.sum_range_succ, Finset.sum_range_zero]
  norm_num

theorem word_lt {BITS : Nat} (x : base_blob BITS) (q : Nat) : x.word q < 2 ^ 64 := by
  rw [word_expand]
  have h0 := x.byte_lt (8 * q)
  have h1 := x.byte_lt (8 * q + 1)
  have h2 := x.byte_lt (8 * q + 2)
  have h3 := x.byte_lt (8 * q + 3)
  have h4 := x.byte_lt (8 * q + 4)
  have h5 := x.byte_lt (8 * q + 5)
  have h6 := x.byte_lt (8 * q + 6)
  have h7 := x.byte_lt (8 * q + 7)
  norm_num
  omega

theorem or_bytes (p0 p1 p2 p3 p4 p5 p6 p7 : Nat) (h0 : p0 < 256) (h1 : p1 < 256)
    (h2 : p2 < 256) (h3 : p3 < 256) (h4 : p4 < 256) (h5 : p5 < 256) (h6 : p6 < 256)
    (h7 : p7 < 256) :
    p0 ||| shl64 p1 8 ||| shl64 p2 16 ||| shl64 p3 24 ||| shl64 p4 32 ||| shl64 p5 40 |||
      shl64 p6 48 ||| shl64 p7 56 =
    p0 + p1 * 2 ^ 8 + p2 * 2 ^ 16 + p3 * 2 ^ 24 + p4 * 2 ^ 32 + p5 * 2 ^ 40 + p6 * 2 ^ 48 +
      p7 * 2 ^ 56 := by
  rw [or_shl64 p0 p1 8 (by norm_num; omega) h1 (by decide),
    or_shl64 _ p2 16 (by norm_num; omega) h2 (by decide),
    or_shl64 _ p3 24 (by norm_num; omega) h3 (by decide),
    or_shl64 _ p4 32 (by norm_num; omega) h4 (by decide),
    or_shl64 _ p5 40 (by norm_num; omega) h5 (by decide),
    or_shl64 _ p6 48 (by norm_num; omega) h6 (by decide),
    or_shl64 _ p7 56 (by norm_num; omega) h7 (by decide)]

/-- Inside `data`, `GetUint64` returns the little-endian word. -/
theorem GetUint64_inside {BITS : Nat} (x : base_blob BITS) (q : Nat)
    (h : 8 * q + 8 ≤ WIDTH BITS) : x.GetUint64 (q : Int) = some (x.word q) := by
  have hr : ∀ k : Nat, k < 8 → x.readAt ((q : Int) * 8 + (k : Int)) = some (x.byte (8 * q + k)) := by
    intro k hk
    have : (q : Int) * 8 + (k : Int) = ((8 * q + k : Nat) : Int) := by push_cast; ring
    rw [this]
    exact readAt_inside x _ (by omega)
  have e0 := hr 0 (by decide)
  have e1 := hr 1 (by decide)
  have e2 := hr 2 (by decide)
  have e3 := hr 3 (by decide)
  have e4 := hr 4 (by decide)
  have e5 := hr 5 (by decide)
  have e6 := hr 6 (by decide)
  have e7 := hr 7 (by decide)
  simp only [Nat.cast_ofNat, Nat.cast_zero, Nat.cast_one] at e0 e1 e2 e3 e4 e5 e6 e7
  simp only [GetUint64, e0, e1, e2, e3, e4, e5, e6, e7]
  rw [or_bytes _ _ _ _ _ _ _ _ (x.byte_lt _) (x.byte_lt _) (x.byte_lt _) (x.byte_lt _)
    (x.byte_lt _) (x.byte_lt _) (x.byte_lt _) (x.byte_lt _), word_expand, Nat.add_zero]

theorem N_eq_words (a : uint256) :
    a.N = Finset.sum (Finset.range 4) (fun pos => a.word pos * 2 ^ (64 * pos)) := by
  have hW : WIDTH 256 = 32 := rfl
  simp only [N, valueBelow, hW, word, Finset.sum_range_succ, Finset.sum_range_zero]
  ring

theorem Compare_eq_lexCompare (a b : uint256) :
    a.Compare b =
      lexCompare [a.word 3, a.word 2, a.word 1, a.word 0]
        [b.word 3, b.word 2, b.word 1, b.word 0] := by
  rw [Compare_eq_sign, N_eq_words, N_eq_words]
  simp only [Finset.sum_range_succ, Finset.sum_range_zero, lexCompare]
  have a0 := a.word_lt 0
  have a1 := a.word_lt 1
  have a2 := a.word_lt 2
  have a3 := a.word_lt 3
  have b0 := b.word_lt 0
  have b1 := b.word_lt 1
  have b2 := b.word_lt 2
  have b3 := b.word_lt 3
  norm_num at a0 a1 a2 a3 b0 b1 b2 b3 ⊢
  split_ifs <;>
    first
    | (apply Int.sign_eq_one_of_pos; omega)
    | (apply Int.sign_eq_neg_one_of_neg; omega)
    | (rw [Int.sign_eq_zero_iff_zero]; omega)

theorem GetUint64_uint160_two (y : uint160) : y.GetUint64 2 = none := by
  have h : y.readAt (2 * 8 + 4) = none := readAt_outside y 20 (by decide)
  simp only [GetUint64, h]
  split
  · rename_i h4 _ _ _
    cases h4
  · rfl

/-! ## The claims on the blobs -/

/-- C13: the relational operators of `base_blob` order blobs as byte arrays: `operator==`
holds iff all bytes are equal; `operator<` is a strict total order (irreflexive, transitive,
and exactly one of a < b, a == b, b < a holds); a <= b iff not (b < a), a > b iff b < a,
a >= b iff not (a < b), and a != b iff not (a == b). -/
theorem relational_operators {BITS : Nat} (a b c : base_blob BITS) :
    (a.eq b = true ↔ ∀ i, i < WIDTH BITS → a.byte i = b.byte i) ∧
    a.lt a = false ∧
    (a.lt b = true → b.lt c = true → a.lt c = true) ∧
    ((a.lt b = true ∧ a.eq b = false ∧ b.lt a = false) ∨
     (a.lt b = false ∧ a.eq b = true ∧ b.lt a = false) ∨
     (a.lt b = false ∧ a.eq b = false ∧ b.lt a = true)) ∧
    (a.le b = true ↔ b.lt a = false) ∧
    (a.gt b = true ↔ b.lt a = true) ∧
    (a.ge b = true ↔ a.lt b = false) ∧
    (a.ne b = true ↔ a.eq b = false) := by
  refine ⟨?_, ?_, ?_, ?_, ?_, ?_, ?_, ?_⟩
  · rw [eq_iff, N_eq_iff, eq_iff_bytes]
  · rw [lt_false_iff]
  · rw [lt_iff, lt_iff, lt_iff]; omega
  · simp only [lt_iff, lt_false_iff, eq_iff, eq_false_iff]; omega
  · rw [lt_false_iff]
    simp only [le, decide_eq_true_eq]
    rw [← Int.not_lt, Compare_pos_iff]
    omega
  · rw [lt_iff]
    simp only [gt, decide_eq_true_eq, GT.gt]
    exact Compare_pos_iff a b
  · rw [lt_false_iff]
    simp only [ge, decide_eq_true_eq, GE.ge]
    rw [← Int.not_lt, Compare_neg_iff]
    omega
  · rw [eq_false_iff]
    simp only [ne, decide_eq_true_eq, Ne]
    rw [Compare_eq_zero_iff, N_eq_iff]

/-- C13 at three 16-bit blobs in increasing order; the byte of index 1 is the more
significant one. -/
theorem relational_operators_witness :
    (⟨[9, 0], rfl⟩ : base_blob 16).lt ⟨[0, 1], rfl⟩ = true ∧
    (⟨[0, 1], rfl⟩ : base_blob 16).lt ⟨[1, 1], rfl⟩ = true ∧
    (⟨[9, 0], rfl⟩ : base_blob 16).lt ⟨[1, 1], rfl⟩ = true :=
  ⟨by decide, by decide,
    (relational_operators (⟨[9, 0], rfl⟩ : base_blob 16) ⟨[0, 1], rfl⟩ ⟨[1, 1], rfl⟩).2.2.1
      (by decide) (by decide)⟩

/-- C18: `Compare` is the comparison of the blobs as little-endian unsigned integers: for
two blobs of the same width, `a.Compare(b)` is -1, 0 or 1 and is the sign of N(a) - N(b),
where N(x) is the sum over i < WIDTH of `x.data[i] * 256^i`; consequently
`a.Compare(b) = -(b.Compare(a))`. -/
theorem Compare_little_endian {BITS : Nat} (a b : base_blob BITS) :
    (a.Compare b = -1 ∨ a.Compare b = 0 ∨ a.Compare b = 1) ∧
    a.Compare b = Int.sign ((a.N : Int) - (b.N : Int)) ∧
    a.N = Finset.sum (Finset.range (WIDTH BITS)) (fun i => a.byte i * 256 ^ i) ∧
    a.Compare b = -(b.Compare a) := by
  refine ⟨?_, Compare_eq_sign a b, rfl, ?_⟩
  · rw [Compare_eq_sign]
    rcases int_sign_cases ((a.N : Int) - (b.N : Int)) with ⟨_, hs⟩ | ⟨_, hs⟩ | ⟨_, hs⟩ <;>
      rw [hs] <;> simp
  · rw [Compare_eq_sign, Compare_eq_sign, ← Int.sign_neg]
    congr 1
    omega

/-- C19: `IsNull` characterises the zero blob: `x.IsNull()` is true iff every byte of `x` is
0, iff `x == base_blob()`, that is iff `x.Compare(base_blob()) == 0`; and after `SetNull()`
`IsNull()` is true whatever the blob held before. -/
theorem IsNull_iff_zero {BITS : Nat} (x : base_blob BITS) :
    (x.IsNull = true ↔ ∀ i, i < WIDTH BITS → x.byte i = 0) ∧
    (x.IsNull = true ↔ x.eq (zero BITS) = true) ∧
    (x.eq (zero BITS) = true ↔ x.Compare (zero BITS) = 0) ∧
    (x.SetNull).IsNull = true := by
  have h1 : x.IsNull = true ↔ ∀ i, i < WIDTH BITS → x.byte i = 0 := by
    unfold IsNull
    rw [IsNullLoop_iff]
    constructor
    · intro h i hi; exact h i (Nat.zero_le _) (by omega)
    · intro h j _ hj; exact h j (by omega)
  refine ⟨h1, ?_, ?_, ?_⟩
  · rw [h1, eq_iff, N_eq_iff, eq_iff_bytes]
    simp only [byte_zero]
  · simp only [eq, decide_eq_true_eq]
  · have h2 : x.SetNull = zero BITS := rfl
    rw [h2]
    unfold IsNull
    rw [IsNullLoop_iff]
    intro j _ _
    exact byte_zero BITS j

/-- C20: `GetUint64` reads a little-endian 64-bit word: for a blob of width `WIDTH` bytes and
every `pos` with 0 <= pos and 8*pos + 8 <= WIDTH, `GetUint64(pos)` reads only bytes inside
`data` and returns the sum over k < 8 of `data[8*pos + k] * 256^k`, which is below 2^64; for
`uint256` the little-endian value of the blob is the sum over pos < 4 of
`GetUint64(pos) * 2^(64*pos)`, so `Compare` agrees with the lexicographic comparison of
(GetUint64(3), GetUint64(2), GetUint64(1), GetUint64(0)); for `uint160`, of width 20, the
call with pos = 2 reads past the end of `data`. -/
theorem GetUint64_little_endian {BITS : Nat} (x : base_blob BITS) (pos : Int) (a b : uint256)
    (y : uint160) (h0 : 0 ≤ pos) (h1 : 8 * pos + 8 ≤ (WIDTH BITS : Int)) :
    (x.GetUint64 pos =
        some (Finset.sum (Finset.range 8) (fun k => x.byte (8 * pos.toNat + k) * 256 ^ k)) ∧
      Finset.sum (Finset.range 8) (fun k => x.byte (8 * pos.toNat + k) * 256 ^ k) < 2 ^ 64 ∧
      ∀ k, k < 8 → 8 * pos.toNat + k < x.data.length) ∧
    (a.GetUint64 0 = some (a.word 0) ∧ a.GetUint64 1 = some (a.word 1) ∧
      a.GetUint64 2 = some (a.word 2) ∧ a.GetUint64 3 = some (a.word 3)) ∧
    a.N = Finset.sum (Finset.range 4) (fun pos => a.word pos * 2 ^ (64 * pos)) ∧
    a.Compare b =
      lexCompare [a.word 3, a.word 2, a.word 1, a.word 0]
        [b.word 3, b.word 2, b.word 1, b.word 0] ∧
    (y.GetUint64 2 = none ∧ WIDTH 160 = 20 ∧ 20 < 8 * 2 + 8) := by
  have hq : 8 * pos.toNat + 8 ≤ WIDTH BITS := by omega
  have hpos : pos = (pos.toNat : Int) := (Int.toNat_of_nonneg h0).symm
  refine ⟨⟨?_, word_lt x pos.toNat, ?_⟩, ⟨?_, ?_, ?_, ?_⟩, N_eq_words a,
    Compare_eq_lexCompare a b, GetUint64_uint160_two y, rfl, by decide⟩
  · have h := GetUint64_inside x pos.toNat hq
    rw [← hpos] at h
    exact h
  · intro k hk
    rw [x.size_eq]
    omega
  · exact GetUint64_inside a 0 (by decide)
  · exact GetUint64_inside a 1 (by decide)
  · exact GetUint64_inside a 2 (by decide)
  · exact GetUint64_inside a 3 (by decide)

/-- C20 at the word of index 3 of a 256-bit blob, whose last byte is 9. -/
theorem GetUint64_little_endian_witness :
    (0 : Int) ≤ 3 ∧ 8 * (3 : Int) + 8 ≤ (WIDTH 256 : Int) ∧
    (⟨[1, 2, 3, 4, 5, 6, 7, 8, 0, 0, 0, 0, 0, 0, 0, 0, 0, 0, 0, 0, 0, 0, 0, 0,
        0, 0, 0, 0, 0, 0, 0, 9], rfl⟩ : uint256).GetUint64 3 = some (9 * 2 ^ 56) ∧
    (zero 160).GetUint64 2 = none := by
  have h := GetUint64_little_endian
    (⟨[1, 2, 3, 4, 5, 6, 7, 8, 0, 0, 0, 0, 0, 0, 0, 0, 0, 0, 0, 0, 0, 0, 0, 0,
        0, 0, 0, 0, 0, 0, 0, 9], rfl⟩ : uint256) 3 (zero 256) (zero 256) (zero 160)
    (by decide) (by decide)
  exact ⟨by decide, by decide, by decide, h.2.2.2.2.1⟩

end base_blob
end Uint256
